import Mathlib

/-!
# Verification of the bounded worker pool and peripheral patterns
# of `go-concurrency-patterns`

The repository's core pattern (spec §2-§6) is a bounded worker pool:
a job source feeds a bounded intake channel, N workers dequeue jobs,
apply a transform and enqueue results to a bounded outtake channel, a
supervisor joins the workers and then closes the outtake exactly once,
and a collector drains the outtake.  In the source the pattern appears
inline in `TestWorkerPool` (src/unnamed/part_002) and
`TestWorkerPoolPattern` (src/examples_test.go): a `jobs` channel, a
`results` channel, `numWorkers` goroutines doing
`for job := range jobs { results <- transform(job) }`, a
`sync.WaitGroup` join followed by `close(results)`, and a
`for result := range results` drain.

We embed the pattern as a labeled transition system over an explicit
pool state.  Each label is one atomic interaction with the shared
channels (one channel send, one channel receive, one close, the
write-once cancellation flag); an execution is an arbitrary
interleaving, i.e. a list of labels threaded through the executable
step function `applyLabel`.  Go channel semantics are embedded
directly: a bounded FIFO that producers can only append to when it is
below capacity, that consumers pop from the front, and whose `close`
is a one-shot flag; an unbuffered (or full-throttle) rendezvous send
is the `handoff` label, where a waiting receiver takes the value
directly.

Modelled from the spec: the repository contains the worker-pool
pattern only inline in its tests; the programmatic surface of spec §6
(`Submit` failing with `Closed`, the idempotent `Cancel` token, and
the cancellation overlay on workers, under which a worker that has
observed the token stops dequeuing) does not exist as code under
`src/` and is embedded here following the spec's words (§4.2, §4.5,
§6, §7).
-/

namespace GoConc

/-- Status of one worker goroutine: ready to dequeue, holding an
in-flight result `r` (the transform already applied, the send to the
outtake still pending), or exited. -/

inductive WStatus where
  | idle
  | busy (r : Nat)
  | exited
deriving DecidableEq, Repr

/-- A job carries its payload `val` and a ghost identity `id` (its
submission index) used to state exactly-once delivery; jobs in the Go
source are plain `int`s identified by arrival order (spec §3). -/

structure Job where
  id : Nat
  val : Nat
deriving DecidableEq, Repr

/-- Pool configuration: fixed worker count, the user transform, and
the two channel capacities (spec §6 `Construct pool`). -/

structure Cfg where
  numWorkers : Nat
  transform : Nat → Nat
  intakeCap : Nat
  outtakeCap : Nat

/-- The shared state of one pool execution.  `intake`/`outtake` are
the buffered contents of the two channels, with their one-shot close
flags; `workers` the status of each worker; `cancelled` the write-once
cancellation token; `drained` the collector's accumulated results.
`nextId`, `submittedVals` and `delivered` are ghost history: the next
submission index, the payloads submitted so far, and the
`(worker, job id)` log of completed dequeues. -/

structure PoolState where
  intake : List Job
  intakeClosed : Bool
  outtake : List Nat
  outtakeClosed : Bool
  workers : List WStatus
  cancelled : Bool
  drained : List Nat
  nextId : Nat
  submittedVals : List Nat
  delivered : List (Nat × Nat)
deriving DecidableEq, Repr

/-- One atomic event of an execution.  `submit`/`closeIntake`/`cancel`
are the caller's moves, `dequeue`/`enqueue`/`handoff`/`exitNormal`/
`exitCancel` are worker `w`'s moves, `closeOuttake` is the
supervisor's join-then-close, and `drainOne` is the collector's
receive. -/

inductive Label where
  | submit (v : Nat)
  | closeIntake
  | cancel
  | dequeue (w : Nat)
  | enqueue (w : Nat)
  | handoff (w : Nat)
  | exitNormal (w : Nat)
  | exitCancel (w : Nat)
  | closeOuttake
  | drainOne
deriving DecidableEq, Repr

/-- Outcome of one `Submit` call (spec §6): accepted with the new pool
state, blocked by backpressure (the bounded intake is full), or the
recoverable `Closed` error when the intake has already been closed.
Modelled from the spec: the `Closed` error result is spec §6/§7
surface that has no code under `src/`. -/

inductive SubmitResult where
  | accepted (s : PoolState)
  | wouldBlock
  | closedErr
deriving Repr

/-- `Submit` (spec §6): enqueue a payload to the bounded intake.
Fails with `Closed` after `CloseIntake`; reports backpressure when the
intake is at capacity; otherwise appends the job (with its arrival
index as identity) and records the ghost history. -/

def Submit (cfg : Cfg) (s : PoolState) (v : Nat) : SubmitResult :=
  if s.intakeClosed then SubmitResult.closedErr
  else if s.intake.length < cfg.intakeCap then
    SubmitResult.accepted
      { s with
        intake := s.intake ++ [⟨s.nextId, v⟩]
        nextId := s.nextId + 1
        submittedVals := s.submittedVals ++ [v] }
  else SubmitResult.wouldBlock

/-- `Cancel` (spec §6): trigger the write-once cancellation token.
Modelled from the spec: the token is §3/§4.5 surface with no pool code
under `src/` (the tests use `context.WithCancel` separately). -/

def Cancel (s : PoolState) : PoolState :=
  { s with cancelled := true }

/-- The executable small-step semantics: `applyLabel cfg l s` is
`some s'` when event `l` is enabled in state `s` (the corresponding
channel operation would complete) and yields `s'`, and `none` when it
is disabled (the goroutine would block, or the call is a usage
error).  Each case mirrors one line of the Go pattern:

* `submit v` — `jobs <- v`, via `Submit`;
* `closeIntake` — `close(jobs)`, at most once (spec §6);
* `cancel` — the write-once token flips to cancelled (a second call
  is absorbed: it is not a distinct event);
* `dequeue w` — worker `w`'s `job := <-jobs` inside
  `for job := range jobs`, guarded by the cancellation poll of spec
  §4.2/§4.5: a worker that has observed the token no longer dequeues;
  the transform is applied on receipt, leaving the worker `busy` with
  the pending result;
* `enqueue w` — worker `w`'s `results <- r` completing into buffer
  space;
* `handoff w` — the same send completing as a rendezvous with the
  waiting collector (empty buffer), the result going straight to
  `drained`;
* `exitNormal w` — `range jobs` ends: intake closed and empty;
* `exitCancel w` — the §4.5 overlay: an idle worker that observes the
  token exits early, abandoning the remaining intake;
* `closeOuttake` — the supervisor's `wg.Wait(); close(results)`:
  enabled only once every worker has exited;
* `drainOne` — the collector's `result := <-results`. -/

def applyLabel (cfg : Cfg) (l : Label) (s : PoolState) : Option PoolState :=
  match l with
  | Label.submit v =>
    match Submit cfg s v with
    | SubmitResult.accepted s' => some s'
    | _ => none
  | Label.closeIntake =>
    if s.intakeClosed then none else some { s with intakeClosed := true }
  | Label.cancel =>
    if s.cancelled then none else some (Cancel s)
  | Label.dequeue w =>
    match s.intake, s.workers[w]? with
    | j :: rest, some WStatus.idle =>
      if s.cancelled then none
      else some { s with
        intake := rest
        workers := s.workers.set w (WStatus.busy (cfg.transform j.val))
        delivered := s.delivered ++ [(w, j.id)] }
    | _, _ => none
  | Label.enqueue w =>
    match s.workers[w]? with
    | some (WStatus.busy r) =>
      if s.outtake.length < cfg.outtakeCap then
        some { s with
          outtake := s.outtake ++ [r]
          workers := s.workers.set w WStatus.idle }
      else none
    | _ => none
  | Label.handoff w =>
    match s.workers[w]? with
    | some (WStatus.busy r) =>
      if s.outtake.isEmpty then
        some { s with
          drained := s.drained ++ [r]
          workers := s.workers.set w WStatus.idle }
      else none
    | _ => none
  | Label.exitNormal w =>
    match s.workers[w]? with
    | some WStatus.idle =>
      if s.intakeClosed && s.intake.isEmpty then
        some { s with workers := s.workers.set w WStatus.exited }
      else none
    | _ => none
  | Label.exitCancel w =>
    match s.workers[w]? with
    | some WStatus.idle =>
      if s.cancelled then
        some { s with workers := s.workers.set w WStatus.exited }
      else none
    | _ => none
  | Label.closeOuttake =>
    if s.outtakeClosed then none
    else if s.workers.all (fun x => x == WStatus.exited) then
      some { s with outtakeClosed := true }
    else none
  | Label.drainOne =>
    match s.outtake with
    | r :: rest => some { s with outtake := rest, drained := s.drained ++ [r] }
    | [] => none

/-- Run a whole interleaving: thread a list of labels through
`applyLabel`, failing if any event is disabled when its turn comes. -/

def runLabels (cfg : Cfg) : List Label → PoolState → Option PoolState
  | [], s => some s
  | l :: ls, s =>
    match applyLabel cfg l s with
    | some s' => runLabels cfg ls s'
    | none => none

/-- The initial pool state (spec §4.5 `Idle`): empty channels, nothing
submitted, all `cfg.numWorkers` workers started idle. -/

def initState (cfg : Cfg) : PoolState :=
  { intake := []
    intakeClosed := false
    outtake := []
    outtakeClosed := false
    workers := List.replicate cfg.numWorkers WStatus.idle
    cancelled := false
    drained := []
    nextId := 0
    submittedVals := []
    delivered := [] }

/-- The terminal `Closed` pool state of spec §4.5, with the drain
complete: every worker has exited, the outtake is closed, and the
collector has taken every remaining buffered result. -/

def ClosedState (s : PoolState) : Prop :=
  (∀ x ∈ s.workers, x = WStatus.exited) ∧
    s.outtakeClosed = true ∧ s.outtake = []

/-- `l` is a move of one of the worker goroutines (as opposed to the
caller, the supervisor or the collector). -/

def isWorkerLabel : Label → Bool
  | Label.dequeue _ => true
  | Label.enqueue _ => true
  | Label.handoff _ => true
  | Label.exitNormal _ => true
  | Label.exitCancel _ => true
  | _ => false

/-- The multiset of in-flight results held by busy workers. -/

def pendingOf : WStatus → Multiset Nat
  | WStatus.busy r => {r}
  | _ => 0

/-- All in-flight results across the worker set. -/

def pendingRes (ws : List WStatus) : Multiset Nat :=
  (ws.map pendingOf).sum

/-! ## The inductive invariant of the pool transition system -/

/-- The inductive invariant of every reachable pool state:

* `conserv` — results conservation: the results drained, buffered in
  the outtake, in flight in busy workers, and still to be produced
  from the intake are, as a multiset, exactly the transforms of all
  submitted payloads;
* `countEq` — every produced result traces back to exactly one
  completed dequeue: drained + buffered + in-flight counts equal the
  delivery-log length;
* `closedExited` — the outtake is only ever closed once every worker
  has exited (spec §3/§4.3);
* `exitedIntake` — if the worker set is non-empty and all workers have
  exited, then either cancellation fired, or the intake was closed and
  fully consumed;
* `nodupIds` — the job identities in the delivery log and those still
  in the intake are pairwise distinct (exactly-once delivery, spec §5);
* `idBound` — all live job identities are below the next submission
  index;
* `wlen` — the worker set keeps its configured fixed cardinality
  (spec §3 `Worker Set`). -/

structure Inv (cfg : Cfg) (s : PoolState) : Prop where
  conserv : (s.drained : Multiset Nat) + (s.outtake : Multiset Nat) +
      pendingRes s.workers +
      ((s.intake.map fun j => cfg.transform j.val : List Nat) : Multiset Nat) =
      ((s.submittedVals.map cfg.transform : List Nat) : Multiset Nat)
  countEq : s.drained.length + s.outtake.length +
      Multiset.card (pendingRes s.workers) = s.delivered.length
  closedExited : s.outtakeClosed = true → ∀ x ∈ s.workers, x = WStatus.exited
  exitedIntake : s.workers ≠ [] → (∀ x ∈ s.workers, x = WStatus.exited) →
      s.cancelled = true ∨ (s.intakeClosed = true ∧ s.intake = [])
  nodupIds : (s.delivered.map Prod.snd ++ s.intake.map Job.id).Nodup
  idBound : ∀ i ∈ s.delivered.map Prod.snd ++ s.intake.map Job.id,
      i < s.nextId
  wlen : s.workers.length = cfg.numWorkers

/-! ## Termination: a variant that every post-close step decreases -/

/-- Weight of one worker in the termination variant: a busy worker
still owes an enqueue and an exit, an idle one only its exit. -/

def wWeight : WStatus → Nat
  | WStatus.idle => 1
  | WStatus.busy _ => 3
  | WStatus.exited => 0

/-- Termination variant for the pool once the intake is closed: every
still-enabled event strictly decreases it. -/

def poolMeasure (s : PoolState) : Nat :=
  3 * s.intake.length + (s.workers.map wWeight).sum + s.outtake.length +
    (if s.cancelled = true then 0 else 1) +
    (if s.outtakeClosed = true then 0 else 1)

/-! ## Termination after cancellation -/

/-- Termination variant for the pool once cancellation has fired:
`dequeue` is disabled from then on, so the intake can only grow, and
only up to its capacity — every still-enabled event strictly decreases
this variant. -/

def cancelMeasure (cfg : Cfg) (s : PoolState) : Nat :=
  (cfg.intakeCap - s.intake.length) + (s.workers.map wWeight).sum +
    s.outtake.length + (if s.intakeClosed = true then 0 else 1) +
    (if s.outtakeClosed = true then 0 else 1)

/-- Shared concrete execution for witnesses: one worker, transform
`n + 1`, capacities 1/1, one job, run to the terminal state. -/

def witCfg : Cfg := ⟨1, fun n => n + 1, 1, 1⟩

/-- The label interleaving of the shared witness execution. -/

def witTrace : List Label :=
  [Label.submit 7, Label.closeIntake, Label.dequeue 0, Label.handoff 0,
   Label.exitNormal 0, Label.closeOuttake]

/-- The final state of the shared witness execution. -/

def witFinal : PoolState :=
  { intake := []
    intakeClosed := true
    outtake := []
    outtakeClosed := true
    workers := [WStatus.exited]
    cancelled := false
    drained := [8]
    nextId := 1
    submittedVals := [7]
    delivered := [(0, 0)] }

/-- The configuration of the spec §8 scenario: 2 workers, transform =
double, intake/outtake capacities 2/2. -/

def demoCfg : Cfg := ⟨2, fun n => 2 * n, 2, 2⟩

/-- A complete interleaving of the spec §8 scenario on `demoCfg`. -/

def demoTrace : List Label :=
  [Label.submit 1, Label.submit 2, Label.dequeue 0, Label.dequeue 1,
   Label.submit 3, Label.submit 4, Label.enqueue 0, Label.enqueue 1,
   Label.dequeue 0, Label.dequeue 1, Label.submit 5, Label.closeIntake,
   Label.drainOne, Label.drainOne, Label.enqueue 0, Label.enqueue 1,
   Label.dequeue 0, Label.drainOne, Label.drainOne, Label.enqueue 0,
   Label.exitNormal 1, Label.exitNormal 0, Label.closeOuttake,
   Label.drainOne]

/-- The terminal state of `demoTrace`. -/

def demoFinal : PoolState :=
  { intake := []
    intakeClosed := true
    outtake := []
    outtakeClosed := true
    workers := [WStatus.exited, WStatus.exited]
    cancelled := false
    drained := [2, 4, 6, 8, 10]
    nextId := 5
    submittedVals := [1, 2, 3, 4, 5]
    delivered := [(0, 0), (1, 1), (0, 2), (1, 3), (0, 4)] }

/-- The configuration of the C8 scenario: 3 workers, double, both
capacities 10 (as in the source worker-pool test). -/

def cancelCfg : Cfg := ⟨3, fun n => 2 * n, 10, 10⟩

/-- Submitting the 10 jobs of the C8 scenario. -/

def cancelPre : List Label :=
  [Label.submit 1, Label.submit 2, Label.submit 3, Label.submit 4,
   Label.submit 5, Label.submit 6, Label.submit 7, Label.submit 8,
   Label.submit 9, Label.submit 10]

/-- The pool state after submitting the 10 jobs, before any dequeue. -/

def cancelMid : PoolState :=
  { intake := [⟨0, 1⟩, ⟨1, 2⟩, ⟨2, 3⟩, ⟨3, 4⟩, ⟨4, 5⟩, ⟨5, 6⟩, ⟨6, 7⟩,
      ⟨7, 8⟩, ⟨8, 9⟩, ⟨9, 10⟩]
    intakeClosed := false
    outtake := []
    outtakeClosed := false
    workers := [WStatus.idle, WStatus.idle, WStatus.idle]
    cancelled := false
    drained := []
    nextId := 10
    submittedVals := [1, 2, 3, 4, 5, 6, 7, 8, 9, 10]
    delivered := [] }

/-- A post-cancel continuation of the C8 scenario that runs the pool
to a genuinely stuck state: all three workers observe the token and
exit early, the caller closes the intake, the supervisor joins and
closes the outtake. -/

def c8Post : List Label :=
  [Label.exitCancel 0, Label.exitCancel 1, Label.exitCancel 2,
   Label.closeIntake, Label.closeOuttake]

/-- The stuck terminal state of the C8 scenario: the 10 jobs are still
resident in the intake, nothing was delivered or drained, every worker
exited, both channels are closed. -/

def c8Final : PoolState :=
  { intake := [⟨0, 1⟩, ⟨1, 2⟩, ⟨2, 3⟩, ⟨3, 4⟩, ⟨4, 5⟩, ⟨5, 6⟩, ⟨6, 7⟩,
      ⟨7, 8⟩, ⟨8, 9⟩, ⟨9, 10⟩]
    intakeClosed := true
    outtake := []
    outtakeClosed := true
    workers := [WStatus.exited, WStatus.exited, WStatus.exited]
    cancelled := true
    drained := []
    nextId := 10
    submittedVals := [1, 2, 3, 4, 5, 6, 7, 8, 9, 10]
    delivered := [] }

/-!
## The ring-buffer forwarder (src/unnamed/part_002 `TestRingBuffer`)

The Go test runs three goroutines around an unbuffered `inCh` and a
buffered `outCh` of capacity 3:

* a producer sending `0..9` to `inCh` and then closing it;
* the forwarder

  ```
  defer close(outCh)
  for v := range inCh {
      select {
      case outCh <- v:        // buffer below capacity
      default:                // buffer full at this instant:
          <-outCh             //   remove the oldest element
          outCh <- v          //   then insert the new one
      }
  }
  ```

* a consumer `for result := range outCh` draining concurrently.

We embed the three goroutines as one labeled transition system:
`RingState` holds the producer's remaining input, the forwarder's
control point, the buffered contents of `outCh` (front = oldest), the
out-channel close flag and the consumer's state; each `RingLabel` is
one atomic channel interaction, and an execution is an arbitrary
interleaving.  Go channel semantics are embedded directly: the
unbuffered `inCh` send is a rendezvous with the forwarder's `range`
receive; a send to the buffered `outCh` completes only when the buffer
is below capacity; a receive only when it is non-empty.  In
particular the forwarder's bare `<-outCh` in the `default` branch is
only enabled on a non-empty buffer — when the concurrent consumer has
already drained the buffer, the forwarder blocks there, which is the
race the claim analysis below exhibits.
-/

/-- The forwarder goroutine's control points: at the `range inCh`
loop head; holding `v` at the `select`; in the `default` branch about
to execute the bare `<-outCh`; about to re-send `v` after the
removal; or finished (`range` ended, `defer close(outCh)` ran). -/

inductive FwdState where
  | loopHead
  | select (v : Nat)
  | removing (v : Nat)
  | resending (v : Nat)
  | done
deriving DecidableEq, Repr

/-- The shared state of one execution of the ring-buffer test
system. -/

structure RingState where
  pending : List Nat
  fwd : FwdState
  buffer : List Nat
  outClosed : Bool
  consumed : List Nat
  consumerDone : Bool
deriving DecidableEq, Repr

/-- One atomic event of the ring-buffer system: the producer/forwarder
rendezvous on `inCh`; the producer's `close(inCh)` together with the
forwarder's `range` ending and its deferred `close(outCh)`; the
forwarder's select send succeeding, its `default` branch being chosen,
the bare removal receive, and the re-send; the consumer receiving one
value; and the consumer observing closed-and-empty. -/

inductive RingLabel where
  | recvInput
  | closeInput
  | sendOk
  | takeDefault
  | removeOldest
  | resend
  | consume
  | consumerEnd
deriving DecidableEq, Repr

/-- The executable small-step semantics of the ring-buffer system:
`some s'` when the event is enabled (the channel operation would
complete), `none` when the goroutine would block:

* `recvInput` — the unbuffered `inCh <- v` / `v := range inCh`
  rendezvous;
* `closeInput` — the producer exhausts its input and closes `inCh`;
  the forwarder's `range` ends and its `defer close(outCh)` runs;
* `sendOk` — `case outCh <- v` succeeds: the buffer is below capacity;
* `takeDefault` — the send would block (buffer at capacity), the
  `select` takes `default`;
* `removeOldest` — the bare `<-outCh`: enabled only when the buffer is
  non-empty (front = oldest); otherwise the forwarder blocks here;
* `resend` — the `outCh <- v` after the removal;
* `consume` — the consumer receives one buffered value;
* `consumerEnd` — the consumer's `range` observes closed-and-empty. -/

def applyRing (cap : Nat) (l : RingLabel) (s : RingState) :
    Option RingState :=
  match l with
  | RingLabel.recvInput =>
    match s.fwd, s.pending with
    | FwdState.loopHead, v :: rest =>
      some { s with pending := rest, fwd := FwdState.select v }
    | _, _ => none
  | RingLabel.closeInput =>
    match s.fwd, s.pending with
    | FwdState.loopHead, [] =>
      some { s with fwd := FwdState.done, outClosed := true }
    | _, _ => none
  | RingLabel.sendOk =>
    match s.fwd with
    | FwdState.select v =>
      if s.buffer.length < cap then
        some { s with fwd := FwdState.loopHead, buffer := s.buffer ++ [v] }
      else none
    | _ => none
  | RingLabel.takeDefault =>
    match s.fwd with
    | FwdState.select v =>
      if s.buffer.length < cap then none
      else some { s with fwd := FwdState.removing v }
    | _ => none
  | RingLabel.removeOldest =>
    match s.fwd, s.buffer with
    | FwdState.removing v, r :: rest =>
      some { s with fwd := FwdState.resending v, buffer := rest }
    | _, _ => none
  | RingLabel.resend =>
    match s.fwd with
    | FwdState.resending v =>
      if s.buffer.length < cap then
        some { s with fwd := FwdState.loopHead, buffer := s.buffer ++ [v] }
      else none
    | _ => none
  | RingLabel.consume =>
    match s.buffer with
    | r :: rest =>
      if s.consumerDone then none
      else some { s with buffer := rest, consumed := s.consumed ++ [r] }
    | [] => none
  | RingLabel.consumerEnd =>
    if s.consumerDone then none
    else if s.outClosed && s.buffer.isEmpty then
      some { s with consumerDone := true }
    else none

/-- Run a whole interleaving of the ring-buffer system. -/

def ringRunSys (cap : Nat) : List RingLabel → RingState → Option RingState
  | [], s => some s
  | l :: ls, s =>
    match applyRing cap l s with
    | some s' => ringRunSys cap ls s'
    | none => none

/-- The initial state: the producer holds the whole input, the
forwarder is at its loop head, the buffer is empty, the consumer is
running. -/

def ringInit (input : List Nat) : RingState :=
  { pending := input
    fwd := FwdState.loopHead
    buffer := []
    outClosed := false
    consumed := []
    consumerDone := false }

/-- All eight event kinds of the ring-buffer system. -/

def ringLabels : List RingLabel :=
  [RingLabel.recvInput, RingLabel.closeInput, RingLabel.sendOk,
   RingLabel.takeDefault, RingLabel.removeOldest, RingLabel.resend,
   RingLabel.consume, RingLabel.consumerEnd]

/-- Executable check that no event at all is enabled in `s`: every
goroutine of the system is blocked. -/

def ringNoStep (cap : Nat) (s : RingState) : Bool :=
  ringLabels.all fun l => (applyRing cap l s).isNone

/-- The deadlocking interleaving of the test system (capacity 3,
input `0..9`): the forwarder buffers `0,1,2`, receives `3` and — the
buffer being full at that instant — takes the `default` branch; the
consumer then drains all three buffered values before the forwarder's
bare `<-outCh` runs. -/

def cexTrace : List RingLabel :=
  [RingLabel.recvInput, RingLabel.sendOk, RingLabel.recvInput,
   RingLabel.sendOk, RingLabel.recvInput, RingLabel.sendOk,
   RingLabel.recvInput, RingLabel.takeDefault, RingLabel.consume,
   RingLabel.consume, RingLabel.consume]

/-- The deadlocked state reached by `cexTrace`: the forwarder is
blocked at the bare `<-outCh` holding value `3` over an empty buffer,
the consumer is blocked on the empty, still-open `outCh`, and the
producer is blocked sending `4` — with six input values never
forwarded and the output channel never closed. -/

def cexStuck : RingState :=
  { pending := [4, 5, 6, 7, 8, 9]
    fwd := FwdState.removing 3
    buffer := []
    outClosed := false
    consumed := [0, 1, 2]
    consumerDone := false }

/-- A completed interleaving of the test system (capacity 3, input
`0..9`) in which the consumer drains only at the end: every overflow
resolves by removing the oldest value, and the consumer receives the
last three inputs. -/

def ringDemoTrace : List RingLabel :=
  [RingLabel.recvInput, RingLabel.sendOk, RingLabel.recvInput,
   RingLabel.sendOk, RingLabel.recvInput, RingLabel.sendOk,
   RingLabel.recvInput, RingLabel.takeDefault, RingLabel.removeOldest,
   RingLabel.resend,
   RingLabel.recvInput, RingLabel.takeDefault, RingLabel.removeOldest,
   RingLabel.resend,
   RingLabel.recvInput, RingLabel.takeDefault, RingLabel.removeOldest,
   RingLabel.resend,
   RingLabel.recvInput, RingLabel.takeDefault, RingLabel.removeOldest,
   RingLabel.resend,
   RingLabel.recvInput, RingLabel.takeDefault, RingLabel.removeOldest,
   RingLabel.resend,
   RingLabel.recvInput, RingLabel.takeDefault, RingLabel.removeOldest,
   RingLabel.resend,
   RingLabel.recvInput, RingLabel.takeDefault, RingLabel.removeOldest,
   RingLabel.resend,
   RingLabel.closeInput, RingLabel.consume, RingLabel.consume,
   RingLabel.consume, RingLabel.consumerEnd]

/-- The terminal state of `ringDemoTrace`. -/

def ringDemoFinal : RingState :=
  { pending := []
    fwd := FwdState.done
    buffer := []
    outClosed := true
    consumed := [7, 8, 9]
    consumerDone := true }

/-- The inductive invariant of the ring-buffer system:

* `bufLe` — the buffer never holds more than the capacity;
* `resendLt` — after a removal the buffer is strictly below capacity,
  so the re-send cannot block;
* `closedDone` — the output channel is closed only once the input is
  exhausted and the forwarder has finished. -/

structure RingInv (cap : Nat) (s : RingState) : Prop where
  bufLe : s.buffer.length ≤ cap
  resendLt : ∀ v, s.fwd = FwdState.resending v → s.buffer.length < cap
  closedDone : s.outClosed = true →
    s.pending = [] ∧ s.fwd = FwdState.done

/-!
## The context-cancellation example (src/16-context/main.go)

`sleepAndTalk` races a timer of duration `d` against the context's
cancellation channel and logs through exactly one of the two `select`
branches.  We embed time as the instant (in milliseconds) at which
each channel fires: the cancellation instant `cancelAt` (or `none` if
the context is never cancelled) against the timer's instant `d`; the
branch whose channel fires strictly first is taken, and the timer
branch is taken when the context never fires before it.  The two
`log.Println` call sites are kept distinct in the log line type.
-/

/-- One line printed by `sleepAndTalk`: the message (from
`log.Println(msg)`) or the context's error (from
`log.Println(ctx.Err())`). -/

inductive LogLine where
  | said (msg : String)
  | ctxError
deriving DecidableEq, Repr

/-- The log written by one call of `sleepAndTalk ctx d msg`, where
`cancelAt` is the instant at which `ctx.Done()` fires (`none` if
never): the `ctx.Done()` branch is taken exactly when the context is
cancelled before the `time.After(d)` timer fires. -/

def sleepAndTalk (cancelAt : Option Nat) (d : Nat) (msg : String) :
    List LogLine :=
  match cancelAt with
  | some t => if t < d then [LogLine.ctxError] else [LogLine.said msg]
  | none => [LogLine.said msg]

/-- The log of the default `main` program: `cancel` is scheduled by
`time.AfterFunc` at 1 second and the sleep is 5 seconds. -/

def mainDefaultLog : List LogLine := sleepAndTalk (some 1000) 5000 "hello"

/-! ## Inversion lemmas: what one enabled step tells us -/

theorem submit_inv {cfg : Cfg} {v : Nat} {s s' : PoolState}
    (h : applyLabel cfg (Label.submit v) s = some s') :
    s.intakeClosed = false ∧ s.intake.length < cfg.intakeCap ∧
      s' = { s with
        intake := s.intake ++ [⟨s.nextId, v⟩]
        nextId := s.nextId + 1
        submittedVals := s.submittedVals ++ [v] } := by
  rcases hic : s.intakeClosed <;>
    by_cases hlen : s.intake.length < cfg.intakeCap <;>
      simp_all [applyLabel, Submit]

theorem closeIntake_inv {cfg : Cfg} {s s' : PoolState}
    (h : applyLabel cfg Label.closeIntake s = some s') :
    s.intakeClosed = false ∧ s' = { s with intakeClosed := true } := by
  rcases hic : s.intakeClosed <;> simp_all [applyLabel]

theorem cancel_inv {cfg : Cfg} {s s' : PoolState}
    (h : applyLabel cfg Label.cancel s = some s') :
    s.cancelled = false ∧ s' = Cancel s := by
  rcases hc : s.cancelled <;> simp_all [applyLabel]

theorem dequeue_inv {cfg : Cfg} {w : Nat} {s s' : PoolState}
    (h : applyLabel cfg (Label.dequeue w) s = some s') :
    ∃ j rest, s.intake = j :: rest ∧ s.workers[w]? = some WStatus.idle ∧
      s.cancelled = false ∧
      s' = { s with
        intake := rest
        workers := s.workers.set w (WStatus.busy (cfg.transform j.val))
        delivered := s.delivered ++ [(w, j.id)] } := by
  rcases hi : s.intake with _ | ⟨j, rest⟩ <;>
    rcases hw : s.workers[w]? with _ | st <;>
      (try cases st) <;> rcases hc : s.cancelled <;>
        simp_all [applyLabel] <;>
          exact ⟨j, rest, ⟨rfl, rfl⟩, h.symm⟩

theorem enqueue_inv {cfg : Cfg} {w : Nat} {s s' : PoolState}
    (h : applyLabel cfg (Label.enqueue w) s = some s') :
    ∃ r, s.workers[w]? = some (WStatus.busy r) ∧
      s.outtake.length < cfg.outtakeCap ∧
      s' = { s with
        outtake := s.outtake ++ [r]
        workers := s.workers.set w WStatus.idle } := by
  rcases hw : s.workers[w]? with _ | st <;> (try cases st) <;>
    by_cases hlen : s.outtake.length < cfg.outtakeCap <;>
      simp_all [applyLabel]

theorem handoff_inv {cfg : Cfg} {w : Nat} {s s' : PoolState}
    (h : applyLabel cfg (Label.handoff w) s = some s') :
    ∃ r, s.workers[w]? = some (WStatus.busy r) ∧ s.outtake = [] ∧
      s' = { s with
        drained := s.drained ++ [r]
        workers := s.workers.set w WStatus.idle } := by
  rcases hw : s.workers[w]? with _ | st <;> (try cases st) <;>
    rcases ho : s.outtake with _ | ⟨r, rest⟩ <;>
      simp_all [applyLabel]

theorem exitNormal_inv {cfg : Cfg} {w : Nat} {s s' : PoolState}
    (h : applyLabel cfg (Label.exitNormal w) s = some s') :
    s.workers[w]? = some WStatus.idle ∧ s.intakeClosed = true ∧
      s.intake = [] ∧
      s' = { s with workers := s.workers.set w WStatus.exited } := by
  rcases hw : s.workers[w]? with _ | st <;> (try cases st) <;>
    rcases hic : s.intakeClosed <;>
      rcases hi : s.intake with _ | ⟨j, rest⟩ <;>
        simp_all [applyLabel]

theorem exitCancel_inv {cfg : Cfg} {w : Nat} {s s' : PoolState}
    (h : applyLabel cfg (Label.exitCancel w) s = some s') :
    s.workers[w]? = some WStatus.idle ∧ s.cancelled = true ∧
      s' = { s with workers := s.workers.set w WStatus.exited } := by
  rcases hw : s.workers[w]? with _ | st <;> (try cases st) <;>
    rcases hc : s.cancelled <;> simp_all [applyLabel]

theorem closeOuttake_inv {cfg : Cfg} {s s' : PoolState}
    (h : applyLabel cfg Label.closeOuttake s = some s') :
    s.outtakeClosed = false ∧ (∀ x ∈ s.workers, x = WStatus.exited) ∧
      s' = { s with outtakeClosed := true } := by
  rcases hoc : s.outtakeClosed <;>
    rcases hall : s.workers.all (fun x => x == WStatus.exited) <;>
      simp_all [applyLabel] <;> exact hall

theorem drainOne_inv {cfg : Cfg} {s s' : PoolState}
    (h : applyLabel cfg Label.drainOne s = some s') :
    ∃ r rest, s.outtake = r :: rest ∧
      s' = { s with outtake := rest, drained := s.drained ++ [r] } := by
  rcases ho : s.outtake with _ | ⟨r, rest⟩ <;> simp_all [applyLabel]
  exact ⟨r, rest, ⟨rfl, rfl⟩, h.symm⟩

/-! ## Helpers about the worker list -/

theorem sum_map_set {α M : Type} [AddCommMonoid M] (f : α → M) :
    ∀ (ws : List α) (w : Nat) (x y : α), ws[w]? = some x →
      ((ws.set w y).map f).sum + f x = (ws.map f).sum + f y := by
  intro ws
  induction ws with
  | nil => intro w x y hx; simp at hx
  | cons a t ih =>
    intro w x y hx
    cases w with
    | zero =>
      simp only [List.getElem?_cons_zero, Option.some.injEq] at hx
      subst hx
      simp only [List.set_cons_zero, List.map_cons, List.sum_cons]
      abel
    | succ n =>
      simp only [List.getElem?_cons_succ] at hx
      simp only [List.set_cons_succ, List.map_cons, List.sum_cons,
        add_assoc]
      rw [ih n x y hx]

theorem pendingRes_set {ws : List WStatus} {w : Nat} {x : WStatus}
    (y : WStatus) (hx : ws[w]? = some x) :
    pendingRes (ws.set w y) + pendingOf x = pendingRes ws + pendingOf y :=
  sum_map_set pendingOf ws w x y hx

theorem pendingRes_of_all_exited {ws : List WStatus}
    (h : ∀ x ∈ ws, x = WStatus.exited) : pendingRes ws = 0 := by
  induction ws with
  | nil => rfl
  | cons a t ih =>
    have ha := h a (by simp)
    subst ha
    have : pendingRes (WStatus.exited :: t) = pendingOf WStatus.exited
        + pendingRes t := by
      simp [pendingRes]
    rw [this, ih fun x hx => h x (by simp [hx])]
    rfl

theorem Inv_init (cfg : Cfg) : Inv cfg (initState cfg) := by
  refine ⟨?_, ?_, ?_, ?_, ?_, ?_, ?_⟩ <;>
    simp [initState, pendingRes, pendingOf, List.mem_replicate]

theorem Inv_step {cfg : Cfg} {l : Label} {s s' : PoolState}
    (h : applyLabel cfg l s = some s') (hInv : Inv cfg s) : Inv cfg s' := by
  cases l with
  | submit v =>
    obtain ⟨hic, hlen, rfl⟩ := submit_inv h
    refine ⟨?_, ?_, ?_, ?_, ?_, ?_, ?_⟩
    · simp only [List.map_append, List.map_cons, List.map_nil]
      rw [← Multiset.coe_add, ← Multiset.coe_add, ← add_assoc,
        hInv.conserv]
    · exact hInv.countEq
    · exact hInv.closedExited
    · intro hne hall
      rcases hInv.exitedIntake hne hall with hC | ⟨hic', _⟩
      · exact Or.inl hC
      · rw [hic] at hic'; cases hic'
    · have hnd := hInv.nodupIds
      simp only [List.map_append, List.map_cons, List.map_nil,
        ← List.append_assoc]
      refine List.Nodup.append hnd (List.nodup_singleton _) ?_
      intro a ha hb'
      simp only [List.mem_singleton] at hb'
      subst hb'
      exact absurd (hInv.idBound _ ha) (lt_irrefl _)
    · intro i him
      simp only [List.map_append, List.map_cons, List.map_nil,
        List.mem_append, List.mem_singleton] at him
      rcases him with him | him | rfl
      · exact Nat.lt_succ_of_lt (hInv.idBound i (by
          simp only [List.mem_append]; exact Or.inl him))
      · exact Nat.lt_succ_of_lt (hInv.idBound i (by
          simp only [List.mem_append]; exact Or.inr him))
      · exact Nat.lt_succ_self _
    · exact hInv.wlen
  | closeIntake =>
    obtain ⟨hic, rfl⟩ := closeIntake_inv h
    refine ⟨hInv.conserv, hInv.countEq, hInv.closedExited, ?_,
      hInv.nodupIds, hInv.idBound, hInv.wlen⟩
    intro hne hall
    rcases hInv.exitedIntake hne hall with hC | ⟨_, hie⟩
    · exact Or.inl hC
    · exact Or.inr ⟨rfl, hie⟩
  | cancel =>
    obtain ⟨hc, rfl⟩ := cancel_inv h
    exact ⟨hInv.conserv, hInv.countEq, hInv.closedExited,
      fun _ _ => Or.inl rfl, hInv.nodupIds, hInv.idBound, hInv.wlen⟩
  | dequeue w =>
    obtain ⟨j, rest, hieq, hw, hc, rfl⟩ := dequeue_inv h
    have hp := pendingRes_set (WStatus.busy (cfg.transform j.val)) hw
    have hp' : pendingRes (s.workers.set w (WStatus.busy (cfg.transform j.val)))
        = pendingRes s.workers + {cfg.transform j.val} := by
      simpa [pendingOf] using hp
    refine ⟨?_, ?_, ?_, ?_, ?_, ?_, ?_⟩
    · have hcv := hInv.conserv
      rw [hieq] at hcv
      simp only [List.map_cons] at hcv
      rw [← Multiset.cons_coe, ← Multiset.singleton_add] at hcv
      rw [hp', ← hcv]
      abel
    · have hcount := hInv.countEq
      have hcard : Multiset.card (pendingRes
            (s.workers.set w (WStatus.busy (cfg.transform j.val))))
          = Multiset.card (pendingRes s.workers) + 1 := by
        rw [hp']; simp
      simp only [hcard, List.length_append, List.length_cons,
        List.length_nil]
      omega
    · intro hoc
      have hall := hInv.closedExited hoc
      have hmem := hall _ (List.getElem?_mem hw)
      simp at hmem
    · intro hne hall
      have hwlt : w < s.workers.length := by
        rcases List.getElem?_eq_some_iff.1 hw with ⟨hlt, _⟩
        exact hlt
      have hmem := hall _ (List.mem_set s.workers w hwlt
        (WStatus.busy (cfg.transform j.val)))
      simp at hmem
    · have hnd := hInv.nodupIds
      rw [hieq] at hnd
      simp only [List.map_append, List.map_cons, List.map_nil] at hnd ⊢
      rw [List.append_assoc, List.singleton_append]
      exact hnd
    · intro i him
      refine hInv.idBound i ?_
      rw [hieq]
      simp only [List.map_append, List.map_cons, List.map_nil,
        List.mem_append, List.mem_cons, List.mem_singleton] at him ⊢
      tauto
    · simpa using hInv.wlen
  | enqueue w =>
    obtain ⟨r, hw, hlen, rfl⟩ := enqueue_inv h
    have hp := pendingRes_set WStatus.idle hw
    have hp' : pendingRes (s.workers.set w WStatus.idle) + {r}
        = pendingRes s.workers := by
      simpa [pendingOf] using hp
    refine ⟨?_, ?_, ?_, ?_, ?_, ?_, ?_⟩
    · rw [← Multiset.coe_add, Multiset.coe_singleton, ← hInv.conserv,
        ← hp']
      abel
    · have hcard : Multiset.card (pendingRes (s.workers.set w WStatus.idle)) + 1
          = Multiset.card (pendingRes s.workers) := by
        rw [← hp']; simp
      have hcount := hInv.countEq
      simp only [List.length_append, List.length_cons, List.length_nil]
      omega
    · intro hoc
      have hall := hInv.closedExited hoc
      have hmem := hall _ (List.getElem?_mem hw)
      simp at hmem
    · intro hne hall
      have hwlt : w < s.workers.length := by
        rcases List.getElem?_eq_some_iff.1 hw with ⟨hlt, _⟩
        exact hlt
      have hmem := hall _ (List.mem_set s.workers w hwlt WStatus.idle)
      simp at hmem
    · exact hInv.nodupIds
    · exact hInv.idBound
    · simpa using hInv.wlen
  | handoff w =>
    obtain ⟨r, hw, ho, rfl⟩ := handoff_inv h
    have hp := pendingRes_set WStatus.idle hw
    have hp' : pendingRes (s.workers.set w WStatus.idle) + {r}
        = pendingRes s.workers := by
      simpa [pendingOf] using hp
    refine ⟨?_, ?_, ?_, ?_, ?_, ?_, ?_⟩
    · rw [← Multiset.coe_add, Multiset.coe_singleton, ← hInv.conserv,
        ← hp']
      abel
    · have hcard : Multiset.card (pendingRes (s.workers.set w WStatus.idle)) + 1
          = Multiset.card (pendingRes s.workers) := by
        rw [← hp']; simp
      have hcount := hInv.countEq
      simp only [List.length_append, List.length_cons, List.length_nil]
      omega
    · intro hoc
      have hall := hInv.closedExited hoc
      have hmem := hall _ (List.getElem?_mem hw)
      simp at hmem
    · intro hne hall
      have hwlt : w < s.workers.length := by
        rcases List.getElem?_eq_some_iff.1 hw with ⟨hlt, _⟩
        exact hlt
      have hmem := hall _ (List.mem_set s.workers w hwlt WStatus.idle)
      simp at hmem
    · exact hInv.nodupIds
    · exact hInv.idBound
    · simpa using hInv.wlen
  | exitNormal w =>
    obtain ⟨hw, hic, hie, rfl⟩ := exitNormal_inv h
    have hp := pendingRes_set WStatus.exited hw
    have hp' : pendingRes (s.workers.set w WStatus.exited)
        = pendingRes s.workers := by
      simpa [pendingOf] using hp
    refine ⟨?_, ?_, ?_, ?_, ?_, ?_, ?_⟩
    · rw [hp']; exact hInv.conserv
    · rw [hp']; exact hInv.countEq
    · intro hoc
      have hall := hInv.closedExited hoc
      have hmem := hall _ (List.getElem?_mem hw)
      simp at hmem
    · intro _ _
      exact Or.inr ⟨hic, hie⟩
    · exact hInv.nodupIds
    · exact hInv.idBound
    · simpa using hInv.wlen
  | exitCancel w =>
    obtain ⟨hw, hc, rfl⟩ := exitCancel_inv h
    have hp := pendingRes_set WStatus.exited hw
    have hp' : pendingRes (s.workers.set w WStatus.exited)
        = pendingRes s.workers := by
      simpa [pendingOf] using hp
    refine ⟨?_, ?_, ?_, ?_, ?_, ?_, ?_⟩
    · rw [hp']; exact hInv.conserv
    · rw [hp']; exact hInv.countEq
    · intro hoc
      have hall := hInv.closedExited hoc
      have hmem := hall _ (List.getElem?_mem hw)
      simp at hmem
    · intro _ _
      exact Or.inl hc
    · exact hInv.nodupIds
    · exact hInv.idBound
    · simpa using hInv.wlen
  | closeOuttake =>
    obtain ⟨hoc, hall, rfl⟩ := closeOuttake_inv h
    refine ⟨hInv.conserv, hInv.countEq, fun _ => hall, ?_,
      hInv.nodupIds, hInv.idBound, hInv.wlen⟩
    intro hne hall'
    exact hInv.exitedIntake hne hall'
  | drainOne =>
    obtain ⟨r, rest, ho, rfl⟩ := drainOne_inv h
    refine ⟨?_, ?_, ?_, ?_, ?_, ?_, ?_⟩
    · have hcv := hInv.conserv
      rw [ho] at hcv
      rw [← Multiset.cons_coe, ← Multiset.singleton_add] at hcv
      rw [← Multiset.coe_add, Multiset.coe_singleton, ← hcv]
      abel
    · have hcount := hInv.countEq
      rw [ho] at hcount
      simp only [List.length_append, List.length_cons, List.length_nil]
        at hcount ⊢
      omega
    · exact hInv.closedExited
    · intro hne hall
      rcases hInv.exitedIntake hne hall with hC | hR
      · exact Or.inl hC
      · exact Or.inr hR
    · exact hInv.nodupIds
    · exact hInv.idBound
    · exact hInv.wlen

theorem Inv_run {cfg : Cfg} :
    ∀ {ls : List Label} {s s' : PoolState},
      runLabels cfg ls s = some s' → Inv cfg s → Inv cfg s'
  | [], s, s', h, hInv => by
    simp only [runLabels, Option.some.injEq] at h
    exact h ▸ hInv
  | l :: ls, s, s', h, hInv => by
    simp only [runLabels] at h
    rcases hstep : applyLabel cfg l s with _ | s₁
    · rw [hstep] at h; cases h
    · rw [hstep] at h
      exact Inv_run h (Inv_step hstep hInv)

theorem Inv_reach {cfg : Cfg} {ls : List Label} {s' : PoolState}
    (h : runLabels cfg ls (initState cfg) = some s') : Inv cfg s' :=
  Inv_run h (Inv_init cfg)

/-! ## Frame and monotonicity lemmas for single steps and traces -/

theorem step_intakeClosed_mono {cfg : Cfg} {l : Label} {s s' : PoolState}
    (h : applyLabel cfg l s = some s') (hic : s.intakeClosed = true) :
    s'.intakeClosed = true := by
  cases l with
  | submit v =>
    obtain ⟨h1, _, rfl⟩ := submit_inv h; rw [h1] at hic; cases hic
  | closeIntake => obtain ⟨_, rfl⟩ := closeIntake_inv h; rfl
  | cancel => obtain ⟨_, rfl⟩ := cancel_inv h; exact hic
  | dequeue w => obtain ⟨j, rest, _, _, _, rfl⟩ := dequeue_inv h; exact hic
  | enqueue w => obtain ⟨r, _, _, rfl⟩ := enqueue_inv h; exact hic
  | handoff w => obtain ⟨r, _, _, rfl⟩ := handoff_inv h; exact hic
  | exitNormal w => obtain ⟨_, _, _, rfl⟩ := exitNormal_inv h; exact hic
  | exitCancel w => obtain ⟨_, _, rfl⟩ := exitCancel_inv h; exact hic
  | closeOuttake => obtain ⟨_, _, rfl⟩ := closeOuttake_inv h; exact hic
  | drainOne => obtain ⟨r, rest, _, rfl⟩ := drainOne_inv h; exact hic

theorem step_cancelled_mono {cfg : Cfg} {l : Label} {s s' : PoolState}
    (h : applyLabel cfg l s = some s') (hc : s.cancelled = true) :
    s'.cancelled = true := by
  cases l with
  | submit v => obtain ⟨_, _, rfl⟩ := submit_inv h; exact hc
  | closeIntake => obtain ⟨_, rfl⟩ := closeIntake_inv h; exact hc
  | cancel => obtain ⟨_, rfl⟩ := cancel_inv h; rfl
  | dequeue w =>
    obtain ⟨j, rest, _, _, h1, rfl⟩ := dequeue_inv h
    rw [h1] at hc; cases hc
  | enqueue w => obtain ⟨r, _, _, rfl⟩ := enqueue_inv h; exact hc
  | handoff w => obtain ⟨r, _, _, rfl⟩ := handoff_inv h; exact hc
  | exitNormal w => obtain ⟨_, _, _, rfl⟩ := exitNormal_inv h; exact hc
  | exitCancel w => obtain ⟨_, _, rfl⟩ := exitCancel_inv h; exact hc
  | closeOuttake => obtain ⟨_, _, rfl⟩ := closeOuttake_inv h; exact hc
  | drainOne => obtain ⟨r, rest, _, rfl⟩ := drainOne_inv h; exact hc

theorem step_cancelled_of_ne {cfg : Cfg} {l : Label} {s s' : PoolState}
    (h : applyLabel cfg l s = some s') (hne : l ≠ Label.cancel) :
    s'.cancelled = s.cancelled := by
  cases l with
  | submit v => obtain ⟨_, _, rfl⟩ := submit_inv h; rfl
  | closeIntake => obtain ⟨_, rfl⟩ := closeIntake_inv h; rfl
  | cancel => exact absurd rfl hne
  | dequeue w => obtain ⟨j, rest, _, _, _, rfl⟩ := dequeue_inv h; rfl
  | enqueue w => obtain ⟨r, _, _, rfl⟩ := enqueue_inv h; rfl
  | handoff w => obtain ⟨r, _, _, rfl⟩ := handoff_inv h; rfl
  | exitNormal w => obtain ⟨_, _, _, rfl⟩ := exitNormal_inv h; rfl
  | exitCancel w => obtain ⟨_, _, rfl⟩ := exitCancel_inv h; rfl
  | closeOuttake => obtain ⟨_, _, rfl⟩ := closeOuttake_inv h; rfl
  | drainOne => obtain ⟨r, rest, _, rfl⟩ := drainOne_inv h; rfl

theorem step_delivered_of_cancelled {cfg : Cfg} {l : Label}
    {s s' : PoolState} (h : applyLabel cfg l s = some s')
    (hc : s.cancelled = true) : s'.delivered = s.delivered := by
  cases l with
  | submit v => obtain ⟨_, _, rfl⟩ := submit_inv h; rfl
  | closeIntake => obtain ⟨_, rfl⟩ := closeIntake_inv h; rfl
  | cancel => obtain ⟨_, rfl⟩ := cancel_inv h; rfl
  | dequeue w =>
    obtain ⟨j, rest, _, _, h1, rfl⟩ := dequeue_inv h
    rw [h1] at hc; cases hc
  | enqueue w => obtain ⟨r, _, _, rfl⟩ := enqueue_inv h; rfl
  | handoff w => obtain ⟨r, _, _, rfl⟩ := handoff_inv h; rfl
  | exitNormal w => obtain ⟨_, _, _, rfl⟩ := exitNormal_inv h; rfl
  | exitCancel w => obtain ⟨_, _, rfl⟩ := exitCancel_inv h; rfl
  | closeOuttake => obtain ⟨_, _, rfl⟩ := closeOuttake_inv h; rfl
  | drainOne => obtain ⟨r, rest, _, rfl⟩ := drainOne_inv h; rfl

theorem step_worker_outtakeClosed {cfg : Cfg} {l : Label}
    {s s' : PoolState} (h : applyLabel cfg l s = some s')
    (hl : isWorkerLabel l = true) : s'.outtakeClosed = s.outtakeClosed := by
  cases l with
  | submit v => cases hl
  | closeIntake => cases hl
  | cancel => cases hl
  | dequeue w => obtain ⟨j, rest, _, _, _, rfl⟩ := dequeue_inv h; rfl
  | enqueue w => obtain ⟨r, _, _, rfl⟩ := enqueue_inv h; rfl
  | handoff w => obtain ⟨r, _, _, rfl⟩ := handoff_inv h; rfl
  | exitNormal w => obtain ⟨_, _, _, rfl⟩ := exitNormal_inv h; rfl
  | exitCancel w => obtain ⟨_, _, rfl⟩ := exitCancel_inv h; rfl
  | closeOuttake => cases hl
  | drainOne => cases hl

theorem step_closeCount {cfg : Cfg} {l : Label} {s s' : PoolState}
    (h : applyLabel cfg l s = some s') :
    (if s'.outtakeClosed = true then 1 else 0) =
      (if s.outtakeClosed = true then 1 else 0) +
        (if l = Label.closeOuttake then 1 else 0) := by
  cases l with
  | submit v => obtain ⟨_, _, rfl⟩ := submit_inv h; simp
  | closeIntake => obtain ⟨_, rfl⟩ := closeIntake_inv h; simp
  | cancel => obtain ⟨_, rfl⟩ := cancel_inv h; simp [Cancel]
  | dequeue w => obtain ⟨j, rest, _, _, _, rfl⟩ := dequeue_inv h; simp
  | enqueue w => obtain ⟨r, _, _, rfl⟩ := enqueue_inv h; simp
  | handoff w => obtain ⟨r, _, _, rfl⟩ := handoff_inv h; simp
  | exitNormal w => obtain ⟨_, _, _, rfl⟩ := exitNormal_inv h; simp
  | exitCancel w => obtain ⟨_, _, rfl⟩ := exitCancel_inv h; simp
  | closeOuttake =>
    obtain ⟨hoc, _, rfl⟩ := closeOuttake_inv h; simp [hoc]
  | drainOne => obtain ⟨r, rest, _, rfl⟩ := drainOne_inv h; simp

theorem run_intakeClosed_mono {cfg : Cfg} :
    ∀ {ls : List Label} {s s' : PoolState},
      runLabels cfg ls s = some s' → s.intakeClosed = true →
        s'.intakeClosed = true
  | [], s, s', h, hic => by
    simp only [runLabels, Option.some.injEq] at h
    exact h ▸ hic
  | l :: ls, s, s', h, hic => by
    simp only [runLabels] at h
    rcases hstep : applyLabel cfg l s with _ | s₁ <;> rw [hstep] at h
    · cases h
    · exact run_intakeClosed_mono h (step_intakeClosed_mono hstep hic)

theorem run_cancelled_mono {cfg : Cfg} :
    ∀ {ls : List Label} {s s' : PoolState},
      runLabels cfg ls s = some s' → s.cancelled = true →
        s'.cancelled = true
  | [], s, s', h, hc => by
    simp only [runLabels, Option.some.injEq] at h
    exact h ▸ hc
  | l :: ls, s, s', h, hc => by
    simp only [runLabels] at h
    rcases hstep : applyLabel cfg l s with _ | s₁ <;> rw [hstep] at h
    · cases h
    · exact run_cancelled_mono h (step_cancelled_mono hstep hc)

theorem run_cancelled_of_not_mem {cfg : Cfg} :
    ∀ {ls : List Label} {s s' : PoolState},
      runLabels cfg ls s = some s' → Label.cancel ∉ ls →
        s'.cancelled = s.cancelled
  | [], s, s', h, _ => by
    simp only [runLabels, Option.some.injEq] at h
    exact h ▸ rfl
  | l :: ls, s, s', h, hmem => by
    simp only [runLabels] at h
    rcases hstep : applyLabel cfg l s with _ | s₁ <;> rw [hstep] at h
    · cases h
    · have h1 : l ≠ Label.cancel := fun he => hmem (he ▸ List.mem_cons_self l ls)
      have h2 : Label.cancel ∉ ls := fun he => hmem (List.mem_cons_of_mem l he)
      rw [run_cancelled_of_not_mem h h2, step_cancelled_of_ne hstep h1]

theorem run_delivered_of_cancelled {cfg : Cfg} :
    ∀ {ls : List Label} {s s' : PoolState},
      runLabels cfg ls s = some s' → s.cancelled = true →
        s'.delivered = s.delivered
  | [], s, s', h, _ => by
    simp only [runLabels, Option.some.injEq] at h
    exact h ▸ rfl
  | l :: ls, s, s', h, hc => by
    simp only [runLabels] at h
    rcases hstep : applyLabel cfg l s with _ | s₁ <;> rw [hstep] at h
    · cases h
    · rw [run_delivered_of_cancelled h (step_cancelled_mono hstep hc),
        step_delivered_of_cancelled hstep hc]

theorem run_closeCount {cfg : Cfg} :
    ∀ {ls : List Label} {s s' : PoolState},
      runLabels cfg ls s = some s' →
        ls.count Label.closeOuttake +
            (if s.outtakeClosed = true then 1 else 0) =
          (if s'.outtakeClosed = true then 1 else 0)
  | [], s, s', h => by
    simp only [runLabels, Option.some.injEq] at h
    subst h
    simp
  | l :: ls, s, s', h => by
    simp only [runLabels] at h
    rcases hstep : applyLabel cfg l s with _ | s₁ <;> rw [hstep] at h
    · cases h
    · have h1 := run_closeCount h
      have h2 := step_closeCount hstep
      simp only [List.count_cons, beq_iff_eq]
      omega

theorem step_measure_lt {cfg : Cfg} {l : Label} {s s' : PoolState}
    (hic : s.intakeClosed = true) (h : applyLabel cfg l s = some s') :
    poolMeasure s' < poolMeasure s := by
  cases l with
  | submit v =>
    obtain ⟨h1, _, rfl⟩ := submit_inv h; rw [h1] at hic; cases hic
  | closeIntake =>
    obtain ⟨h1, rfl⟩ := closeIntake_inv h; rw [h1] at hic; cases hic
  | cancel =>
    obtain ⟨hc, rfl⟩ := cancel_inv h
    cases hoc : s.outtakeClosed <;>
      simp [poolMeasure, Cancel, hc, hoc]
  | dequeue w =>
    obtain ⟨j, rest, hieq, hw, hc, rfl⟩ := dequeue_inv h
    have hsum := sum_map_set wWeight s.workers w WStatus.idle
      (WStatus.busy (cfg.transform j.val)) hw
    simp only [List.map_set, wWeight] at hsum
    cases hoc : s.outtakeClosed <;>
      simp [poolMeasure, wWeight, hieq, hc, hoc] <;> omega
  | enqueue w =>
    obtain ⟨r, hw, hlen, rfl⟩ := enqueue_inv h
    have hsum := sum_map_set wWeight s.workers w (WStatus.busy r)
      WStatus.idle hw
    simp only [List.map_set, wWeight] at hsum
    cases hoc : s.outtakeClosed <;> cases hc : s.cancelled <;>
      simp [poolMeasure, wWeight, hoc, hc] <;> omega
  | handoff w =>
    obtain ⟨r, hw, ho, rfl⟩ := handoff_inv h
    have hsum := sum_map_set wWeight s.workers w (WStatus.busy r)
      WStatus.idle hw
    simp only [List.map_set, wWeight] at hsum
    cases hoc : s.outtakeClosed <;> cases hc : s.cancelled <;>
      simp [poolMeasure, wWeight, hoc, hc] <;> omega
  | exitNormal w =>
    obtain ⟨hw, _, _, rfl⟩ := exitNormal_inv h
    have hsum := sum_map_set wWeight s.workers w WStatus.idle
      WStatus.exited hw
    simp only [List.map_set, wWeight] at hsum
    cases hoc : s.outtakeClosed <;> cases hc : s.cancelled <;>
      simp [poolMeasure, wWeight, hoc, hc] <;> omega
  | exitCancel w =>
    obtain ⟨hw, hc, rfl⟩ := exitCancel_inv h
    have hsum := sum_map_set wWeight s.workers w WStatus.idle
      WStatus.exited hw
    simp only [List.map_set, wWeight] at hsum
    cases hoc : s.outtakeClosed <;>
      simp [poolMeasure, wWeight, hoc, hc] <;> omega
  | closeOuttake =>
    obtain ⟨hoc, _, rfl⟩ := closeOuttake_inv h
    cases hc : s.cancelled <;>
      simp [poolMeasure, hoc, hc]
  | drainOne =>
    obtain ⟨r, rest, ho, rfl⟩ := drainOne_inv h
    cases hoc : s.outtakeClosed <;> cases hc : s.cancelled <;>
      simp [poolMeasure, ho, hoc, hc]

theorem run_length_le {cfg : Cfg} :
    ∀ {ls : List Label} {s s' : PoolState}, s.intakeClosed = true →
      runLabels cfg ls s = some s' →
        ls.length + poolMeasure s' ≤ poolMeasure s
  | [], s, s', _, h => by
    simp only [runLabels, Option.some.injEq] at h
    subst h
    simp
  | l :: ls, s, s', hic, h => by
    simp only [runLabels] at h
    rcases hstep : applyLabel cfg l s with _ | s₁ <;> rw [hstep] at h
    · cases h
    · have h1 := run_length_le (step_intakeClosed_mono hstep hic) h
      have h2 := step_measure_lt hic hstep
      simp only [List.length_cons]
      omega

/-! ## A stuck pool is a terminated pool -/

/-- If no event is enabled and either cancellation has fired or the
intake is closed, the pool has reached the terminal `Closed` state
with its outtake fully drained: every worker exited, outtake closed
and empty. -/

theorem noStep_closedState {cfg : Cfg} {s : PoolState}
    (hd : s.cancelled = true ∨ s.intakeClosed = true)
    (hmax : ∀ l, applyLabel cfg l s = none) : ClosedState s := by
  have hall : ∀ x ∈ s.workers, x = WStatus.exited := by
    intro x hx
    rcases List.mem_iff_getElem?.1 hx with ⟨w, hw⟩
    cases x with
    | idle =>
      cases hc : s.cancelled with
      | true =>
        have := hmax (Label.exitCancel w)
        simp [applyLabel, hw, hc] at this
      | false =>
        have hic : s.intakeClosed = true := by
          rcases hd with hd | hd
          · rw [hc] at hd; cases hd
          · exact hd
        cases hi2 : s.intake with
        | nil =>
          have := hmax (Label.exitNormal w)
          simp [applyLabel, hw, hic, hi2] at this
        | cons j rest =>
          have := hmax (Label.dequeue w)
          simp [applyLabel, hw, hi2, hc] at this
    | busy r =>
      cases ho : s.outtake with
      | nil =>
        have := hmax (Label.handoff w)
        simp [applyLabel, hw, ho] at this
      | cons r2 rest =>
        have := hmax Label.drainOne
        simp [applyLabel, ho] at this
    | exited => rfl
  refine ⟨hall, ?_, ?_⟩
  · cases hoc : s.outtakeClosed with
    | true => rfl
    | false =>
      have hmx := hmax Label.closeOuttake
      have hallb : s.workers.all (fun x => x == WStatus.exited) = true := by
        rw [List.all_eq_true]
        intro x hx
        simpa using hall x hx
      simp [applyLabel, hoc, hallb] at hmx
  · cases ho : s.outtake with
    | nil => rfl
    | cons r rest =>
      have hmx := hmax Label.drainOne
      simp [applyLabel, ho] at hmx

theorem step_cancelMeasure_lt {cfg : Cfg} {l : Label} {s s' : PoolState}
    (hcanc : s.cancelled = true) (h : applyLabel cfg l s = some s') :
    cancelMeasure cfg s' < cancelMeasure cfg s := by
  cases l with
  | submit v =>
    obtain ⟨h1, hlen, rfl⟩ := submit_inv h
    cases hoc : s.outtakeClosed <;>
      simp [cancelMeasure, h1, hoc, List.length_append] <;> omega
  | closeIntake =>
    obtain ⟨h1, rfl⟩ := closeIntake_inv h
    cases hoc : s.outtakeClosed <;>
      simp [cancelMeasure, h1, hoc]
  | cancel =>
    obtain ⟨hc, rfl⟩ := cancel_inv h
    rw [hcanc] at hc; cases hc
  | dequeue w =>
    obtain ⟨j, rest, _, _, hc, rfl⟩ := dequeue_inv h
    rw [hcanc] at hc; cases hc
  | enqueue w =>
    obtain ⟨r, hw, hlen, rfl⟩ := enqueue_inv h
    have hsum := sum_map_set wWeight s.workers w (WStatus.busy r)
      WStatus.idle hw
    simp only [List.map_set, wWeight] at hsum
    cases hoc : s.outtakeClosed <;> cases hic : s.intakeClosed <;>
      simp [cancelMeasure, wWeight, hoc, hic] <;> omega
  | handoff w =>
    obtain ⟨r, hw, ho, rfl⟩ := handoff_inv h
    have hsum := sum_map_set wWeight s.workers w (WStatus.busy r)
      WStatus.idle hw
    simp only [List.map_set, wWeight] at hsum
    cases hoc : s.outtakeClosed <;> cases hic : s.intakeClosed <;>
      simp [cancelMeasure, wWeight, hoc, hic] <;> omega
  | exitNormal w =>
    obtain ⟨hw, _, _, rfl⟩ := exitNormal_inv h
    have hsum := sum_map_set wWeight s.workers w WStatus.idle
      WStatus.exited hw
    simp only [List.map_set, wWeight] at hsum
    cases hoc : s.outtakeClosed <;> cases hic : s.intakeClosed <;>
      simp [cancelMeasure, wWeight, hoc, hic] <;> omega
  | exitCancel w =>
    obtain ⟨hw, hc, rfl⟩ := exitCancel_inv h
    have hsum := sum_map_set wWeight s.workers w WStatus.idle
      WStatus.exited hw
    simp only [List.map_set, wWeight] at hsum
    cases hoc : s.outtakeClosed <;> cases hic : s.intakeClosed <;>
      simp [cancelMeasure, wWeight, hoc, hic] <;> omega
  | closeOuttake =>
    obtain ⟨hoc, _, rfl⟩ := closeOuttake_inv h
    cases hic : s.intakeClosed <;>
      simp [cancelMeasure, hoc, hic]
  | drainOne =>
    obtain ⟨r, rest, ho, rfl⟩ := drainOne_inv h
    cases hoc : s.outtakeClosed <;> cases hic : s.intakeClosed <;>
      simp [cancelMeasure, ho, hoc, hic]

theorem run_length_le_of_cancelled {cfg : Cfg} :
    ∀ {ls : List Label} {s s' : PoolState}, s.cancelled = true →
      runLabels cfg ls s = some s' →
        ls.length + cancelMeasure cfg s' ≤ cancelMeasure cfg s
  | [], s, s', _, h => by
    simp only [runLabels, Option.some.injEq] at h
    subst h
    simp
  | l :: ls, s, s', hcanc, h => by
    simp only [runLabels] at h
    rcases hstep : applyLabel cfg l s with _ | s₁ <;> rw [hstep] at h
    · cases h
    · have h1 := run_length_le_of_cancelled
        (step_cancelled_mono hstep hcanc) h
    
      have h2 := step_cancelMeasure_lt hcanc hstep
      simp only [List.length_cons]
      omega

/-- In a state with the intake closed, the outtake closed and empty,
cancellation fired and every worker exited, no event is enabled at
all: the pool is genuinely stuck (and `ClosedState` holds). -/

theorem applyLabel_none_of_closed_exited {cfg : Cfg} {s : PoolState}
    (hic : s.intakeClosed = true) (hoc : s.outtakeClosed = true)
    (hcanc : s.cancelled = true) (hout : s.outtake = [])
    (hall : ∀ x ∈ s.workers, x = WStatus.exited) :
    ∀ l, applyLabel cfg l s = none := by
  intro l
  cases l with
  | submit v => simp [applyLabel, Submit, hic]
  | closeIntake => simp [applyLabel, hic]
  | cancel => simp [applyLabel, hcanc]
  | dequeue w =>
    rcases hi : s.intake with _ | ⟨j, rest⟩ <;>
      rcases hw : s.workers[w]? with _ | x <;>
        (try cases x) <;> simp [applyLabel, hi, hw, hcanc]
  | enqueue w =>
    rcases hw : s.workers[w]? with _ | x
    · simp [applyLabel, hw]
    · have hx := hall x (List.getElem?_mem hw)
      subst hx
      simp [applyLabel, hw]
  | handoff w =>
    rcases hw : s.workers[w]? with _ | x
    · simp [applyLabel, hw]
    · have hx := hall x (List.getElem?_mem hw)
      subst hx
      simp [applyLabel, hw]
  | exitNormal w =>
    rcases hw : s.workers[w]? with _ | x
    · simp [applyLabel, hw]
    · have hx := hall x (List.getElem?_mem hw)
      subst hx
      simp [applyLabel, hw]
  | exitCancel w =>
    rcases hw : s.workers[w]? with _ | x
    · simp [applyLabel, hw]
    · have hx := hall x (List.getElem?_mem hw)
      subst hx
      simp [applyLabel, hw]
  | closeOuttake => simp [applyLabel, hoc]
  | drainOne => simp [applyLabel, hout]

/-! ## The claims -/

/-- C1: for every number N of Jobs submitted to the intake before the
intake is closed, with no cancellation triggered, draining the outtake
yields exactly N Results — the pool neither loses nor duplicates work.
Formally: along any interleaving from the initial state of a pool with
at least one worker that contains no `cancel` event and ends with the
outtake closed and fully drained, the number of drained results equals
the number of submitted payloads (all of which were necessarily
submitted before `closeIntake`, since a later `submit` is rejected). -/

theorem claim1_cardinality_preservation {cfg : Cfg} {ls : List Label}
    {s' : PoolState} (hw : 1 ≤ cfg.numWorkers)
    (hrun : runLabels cfg ls (initState cfg) = some s')
    (hnc : Label.cancel ∉ ls)
    (hoc : s'.outtakeClosed = true) (hdr : s'.outtake = []) :
    s'.drained.length = s'.submittedVals.length := by
  have hInv := Inv_reach hrun
  have hall := hInv.closedExited hoc
  have hne : s'.workers ≠ [] := by
    intro h0
    have hlen := hInv.wlen
    rw [h0] at hlen
    simp at hlen
    omega
  have hcanc : s'.cancelled = false := run_cancelled_of_not_mem hrun hnc
  rcases hInv.exitedIntake hne hall with hC | ⟨hic, hie⟩
  · rw [hcanc] at hC; cases hC
  · have hpend := pendingRes_of_all_exited hall
    have hcv := hInv.conserv
    rw [hdr, hie, hpend] at hcv
    simp only [List.map_nil, Multiset.coe_nil, add_zero] at hcv
    have hcard := congrArg Multiset.card hcv
    simpa using hcard

/-- Witness for C1 at a concrete execution. -/

theorem claim1_witness :
    1 ≤ witCfg.numWorkers ∧ Label.cancel ∉ witTrace ∧
      witFinal.outtakeClosed = true ∧ witFinal.outtake = [] ∧
      witFinal.drained.length = witFinal.submittedVals.length :=
  ⟨by decide, by decide, rfl, rfl,
    claim1_cardinality_preservation (by decide)
      (rfl : runLabels witCfg witTrace (initState witCfg) = some witFinal)
      (by decide) rfl rfl⟩

/-- C2: the outtake queue is closed exactly once, and only after every
Worker has exited; a Worker never closes the outtake, and the close
never occurs while any Worker may still attempt to enqueue a Result
(join-before-close, enforced by the supervisor).  Formally, along any
interleaving from the initial state: (1) the number of `closeOuttake`
events is exactly one when the outtake ends closed and zero otherwise;
(2) if the outtake is closed then every worker has exited; (3) no
worker event ever changes the outtake's close flag; (4) once the
outtake is closed, no worker enqueue or handoff is enabled. -/

theorem claim2_outtake_close_protocol {cfg : Cfg} {ls : List Label}
    {s' : PoolState}
    (hrun : runLabels cfg ls (initState cfg) = some s') :
    ls.count Label.closeOuttake =
        (if s'.outtakeClosed = true then 1 else 0) ∧
      (s'.outtakeClosed = true → ∀ x ∈ s'.workers, x = WStatus.exited) ∧
      (∀ l t t', isWorkerLabel l = true → applyLabel cfg l t = some t' →
        t'.outtakeClosed = t.outtakeClosed) ∧
      (s'.outtakeClosed = true → ∀ w,
        applyLabel cfg (Label.enqueue w) s' = none ∧
          applyLabel cfg (Label.handoff w) s' = none) := by
  refine ⟨?_, (Inv_reach hrun).closedExited, ?_, ?_⟩
  · have h1 := run_closeCount hrun
    simpa [initState] using h1
  · intro l t t' hl hstep
    exact step_worker_outtakeClosed hstep hl
  · intro hoc w
    have hall := (Inv_reach hrun).closedExited hoc
    constructor
    · rcases hw : s'.workers[w]? with _ | x
      · simp [applyLabel, hw]
      · have hx := hall _ (List.getElem?_mem hw)
        subst hx
        simp [applyLabel, hw]
    · rcases hw : s'.workers[w]? with _ | x
      · simp [applyLabel, hw]
      · have hx := hall _ (List.getElem?_mem hw)
        subst hx
        simp [applyLabel, hw]

/-- Witness for C2 at the shared concrete execution. -/

theorem claim2_witness :
    witTrace.count Label.closeOuttake =
        (if witFinal.outtakeClosed = true then 1 else 0) ∧
      (witFinal.outtakeClosed = true →
        ∀ x ∈ witFinal.workers, x = WStatus.exited) :=
  ⟨(claim2_outtake_close_protocol
      (rfl : runLabels witCfg witTrace (initState witCfg) = some witFinal)).1,
   (claim2_outtake_close_protocol
      (rfl : runLabels witCfg witTrace (initState witCfg) = some witFinal)).2.1⟩

/-- C3: each Job enqueued to the intake is delivered to exactly one
Worker — no two Workers ever receive the same Job.  Formally, in any
reachable state the delivery log (one entry `(w, id)` per completed
dequeue) never mentions the same job identity twice; in particular two
entries with the same job belong to the same worker. -/

theorem claim3_exactly_once_delivery {cfg : Cfg} {ls : List Label}
    {s' : PoolState}
    (hrun : runLabels cfg ls (initState cfg) = some s') :
    (s'.delivered.map Prod.snd).Nodup ∧
      ∀ w j w', (w, j) ∈ s'.delivered → (w', j) ∈ s'.delivered →
        w = w' := by
  have hInv := Inv_reach hrun
  have hnd : (s'.delivered.map Prod.snd).Nodup :=
    List.Nodup.of_append_left hInv.nodupIds
  refine ⟨hnd, ?_⟩
  intro w j w' h1 h2
  have heq := List.inj_on_of_nodup_map hnd h1 h2 rfl
  exact congrArg Prod.fst heq

/-- Witness for C3 at the shared concrete execution. -/

theorem claim3_witness : (witFinal.delivered.map Prod.snd).Nodup :=
  (claim3_exactly_once_delivery
    (rfl : runLabels witCfg witTrace (initState witCfg) = some witFinal)).1

/-- C4: for every Job payload, calling `Submit` after `CloseIntake`
has been called fails with the `Closed` error — a recoverable error
result, and no state change happens (the corresponding transition is
disabled).  Formally: in any state reached by running further events
after a `closeIntake` step, `Submit` returns `closedErr` and the
`submit` transition is disabled. -/

theorem claim4_submit_after_close {cfg : Cfg} {ls₁ ls₂ : List Label}
    {s₁ s₂ s₃ : PoolState} {v : Nat}
    (h1 : runLabels cfg ls₁ (initState cfg) = some s₁)
    (h2 : applyLabel cfg Label.closeIntake s₁ = some s₂)
    (h3 : runLabels cfg ls₂ s₂ = some s₃) :
    Submit cfg s₃ v = SubmitResult.closedErr ∧
      applyLabel cfg (Label.submit v) s₃ = none := by
  obtain ⟨_, rfl⟩ := closeIntake_inv h2
  have hic3 : s₃.intakeClosed = true := run_intakeClosed_mono h3 rfl
  constructor
  · simp [Submit, hic3]
  · simp [applyLabel, Submit, hic3]

/-- Witness for C4: submit 9 after closing the intake of the shared
configuration. -/

theorem claim4_witness :
    Submit witCfg { initState witCfg with intakeClosed := true } 9 =
        SubmitResult.closedErr ∧
      applyLabel witCfg (Label.submit 9)
        { initState witCfg with intakeClosed := true } = none :=
  claim4_submit_after_close
    (rfl : runLabels witCfg [] (initState witCfg) = some (initState witCfg))
    (rfl : applyLabel witCfg Label.closeIntake (initState witCfg) =
      some { initState witCfg with intakeClosed := true })
    (rfl : runLabels witCfg []
        { initState witCfg with intakeClosed := true } =
      some { initState witCfg with intakeClosed := true })

/-- C5: for every pool configuration with worker count at least 1,
once `CloseIntake` has been called and no Job blocks indefinitely,
`Shutdown/Wait` terminates: each Worker's loop ends when the intake is
observed closed and empty (or the cancellation token is observed), and
the join then completes.  Formally, from any reachable state with the
intake closed: (1) every further interleaving has length at most the
variant `poolMeasure`, so no execution runs forever; (2) any further
reachable state in which no event is enabled is the terminal `Closed`
state — all workers exited, outtake closed and drained. -/

theorem claim5_shutdown_terminates {cfg : Cfg} {ls : List Label}
    {s : PoolState} (hw : 1 ≤ cfg.numWorkers)
    (hrun : runLabels cfg ls (initState cfg) = some s)
    (hic : s.intakeClosed = true) :
    (∀ ls₂ s₂, runLabels cfg ls₂ s = some s₂ →
        ls₂.length ≤ poolMeasure s) ∧
      (∀ ls₂ s₂, runLabels cfg ls₂ s = some s₂ →
        (∀ l, applyLabel cfg l s₂ = none) → ClosedState s₂) := by
  constructor
  · intro ls₂ s₂ h2
    have := run_length_le hic h2
    omega
  · intro ls₂ s₂ h2 hmax
    exact noStep_closedState (Or.inr (run_intakeClosed_mono h2 hic)) hmax

/-- Witness for C5: the shared configuration right after
`closeIntake`. -/

theorem claim5_witness :
    1 ≤ witCfg.numWorkers ∧
      (∀ ls₂ s₂, runLabels witCfg ls₂
          { initState witCfg with intakeClosed := true } = some s₂ →
        ls₂.length ≤
          poolMeasure { initState witCfg with intakeClosed := true }) :=
  ⟨by decide,
   (claim5_shutdown_terminates (by decide)
      (rfl : runLabels witCfg [Label.closeIntake] (initState witCfg) =
        some { initState witCfg with intakeClosed := true })
      rfl).1⟩

/-- C6: in the scenario where Jobs `[1,2,3,4,5]` are submitted with
transform = double on a pool of 2 workers with intake/outtake
capacities 2/2, `Drain` yields exactly the set `{2,4,6,8,10}`, in
unspecified order, after `Wait` returns.  Formally: any cancel-free
interleaving of `demoCfg` whose submitted payloads are `[1,2,3,4,5]`
and that ends with the outtake closed and fully drained has drained
exactly a permutation of `[2,4,6,8,10]` — hence that set. -/

theorem claim6_scenario_double {ls : List Label} {s' : PoolState}
    (hrun : runLabels demoCfg ls (initState demoCfg) = some s')
    (hsub : s'.submittedVals = [1, 2, 3, 4, 5])
    (hnc : Label.cancel ∉ ls)
    (hoc : s'.outtakeClosed = true) (hdr : s'.outtake = []) :
    s'.drained.Perm [2, 4, 6, 8, 10] ∧
      s'.drained.toFinset = ({2, 4, 6, 8, 10} : Finset Nat) := by
  have hInv := Inv_reach hrun
  have hall := hInv.closedExited hoc
  have hne : s'.workers ≠ [] := by
    intro h0
    have hlen := hInv.wlen
    rw [h0] at hlen
    exact absurd hlen (by decide)
  have hcanc : s'.cancelled = false := run_cancelled_of_not_mem hrun hnc
  rcases hInv.exitedIntake hne hall with hC | ⟨hic, hie⟩
  · rw [hcanc] at hC; cases hC
  · have hpend := pendingRes_of_all_exited hall
    have hcv := hInv.conserv
    rw [hdr, hie, hpend, hsub] at hcv
    simp only [List.map_nil, Multiset.coe_nil, add_zero] at hcv
    have hmap : List.map demoCfg.transform [1, 2, 3, 4, 5] =
        [2, 4, 6, 8, 10] := rfl
    rw [hmap] at hcv
    have hperm : s'.drained.Perm [2, 4, 6, 8, 10] :=
      Multiset.coe_eq_coe.1 hcv
    refine ⟨hperm, ?_⟩
    rw [List.toFinset_eq_of_perm _ _ hperm]
    decide

/-- Witness for C6 at the concrete scenario interleaving. -/

theorem claim6_witness :
    demoFinal.submittedVals = [1, 2, 3, 4, 5] ∧
      demoFinal.drained.Perm [2, 4, 6, 8, 10] ∧
      demoFinal.drained.toFinset = ({2, 4, 6, 8, 10} : Finset Nat) :=
  ⟨rfl,
   claim6_scenario_double
     (rfl : runLabels demoCfg demoTrace (initState demoCfg) =
       some demoFinal)
     rfl (by decide) rfl rfl⟩

/-- C7: `Cancel` is idempotent: calling it any number of times at
least once leaves the pool in the same state as calling it exactly
once; the cancellation token transitions write-once from not-cancelled
to cancelled and is never reset by any event.  Formally: `Cancel` is
idempotent as a state function and under iteration, it sets the token,
no transition ever clears the token, and the `cancel` event is exactly
a conditional application of `Cancel` (a second `cancel` is not a
distinct enabled event). -/

theorem claim7_cancel_idempotent (cfg : Cfg) :
    (∀ s, Cancel (Cancel s) = Cancel s) ∧
      (∀ s n, Cancel^[n + 1] s = Cancel s) ∧
      (∀ s, (Cancel s).cancelled = true) ∧
      (∀ l s s', applyLabel cfg l s = some s' → s.cancelled = true →
        s'.cancelled = true) ∧
      (∀ s, applyLabel cfg Label.cancel s =
        if s.cancelled = true then none else some (Cancel s)) := by
  refine ⟨fun s => rfl, ?_, fun s => rfl, ?_, fun s => rfl⟩
  · intro s n
    rw [Function.iterate_succ_apply]
    exact Function.iterate_fixed rfl n
  · intro l s s' hstep hc
    exact step_cancelled_mono hstep hc

/-- Witness for C7 at concrete states of the shared configuration. -/

theorem claim7_witness :
    Cancel (Cancel (initState witCfg)) = Cancel (initState witCfg) ∧
      Cancel^[3] (initState witCfg) = Cancel (initState witCfg) ∧
      (Cancel (initState witCfg)).cancelled = true ∧
      ({ initState witCfg with intakeClosed := true, cancelled := true } :
          PoolState).cancelled = true :=
  ⟨(claim7_cancel_idempotent witCfg).1 _,
   (claim7_cancel_idempotent witCfg).2.1 _ 2,
   (claim7_cancel_idempotent witCfg).2.2.1 _,
   (claim7_cancel_idempotent witCfg).2.2.2.1 Label.closeIntake
     (Cancel (initState witCfg))
     { initState witCfg with intakeClosed := true, cancelled := true }
     rfl rfl⟩

/-- C8: in the scenario where 10 Jobs are submitted and `Cancel` is
called before any dequeue completes, `Drain` yields between 0 and 10
Results (in this model, with the cancellation poll of §4.5, exactly 0,
which lies in that range — the lower bound is trivial in ℕ), the pool
still reaches the `Closed` state, and Jobs still resident in the
intake at cancellation are never processed: the delivery log stays
empty forever, so nothing is ever retried.  Reaching Closed is
rendered as for C5: (a) every post-cancel execution has length at most
the variant `cancelMeasure` (dequeues are disabled once the token is
observed, so the intake can grow only up to its capacity and every
enabled event strictly decreases the variant), so no execution runs
forever; and (b) any further reachable state in which no event is
enabled is the terminal `Closed` state. -/

theorem claim8_cancel_before_dequeue {cfg : Cfg} {pre post : List Label}
    {s₁ s₂ s' : PoolState}
    (h1 : runLabels cfg pre (initState cfg) = some s₁)
    (hndq : s₁.delivered = [])
    (hsub : s₁.submittedVals.length = 10)
    (h2 : applyLabel cfg Label.cancel s₁ = some s₂)
    (h3 : runLabels cfg post s₂ = some s') :
    s'.delivered = [] ∧ s'.drained.length ≤ 10 ∧
      (∀ ls₂ s₃, runLabels cfg ls₂ s' = some s₃ →
        ls₂.length ≤ cancelMeasure cfg s') ∧
      (∀ ls₂ s₃, runLabels cfg ls₂ s' = some s₃ →
        (∀ l, applyLabel cfg l s₃ = none) → ClosedState s₃) := by
  obtain ⟨hc1, rfl⟩ := cancel_inv h2
  have hc2 : (Cancel s₁).cancelled = true := rfl
  have hcs : s'.cancelled = true := run_cancelled_mono h3 hc2
  have hdel : s'.delivered = [] := by
    rw [run_delivered_of_cancelled h3 hc2]
    exact hndq
  have hInv' : Inv cfg s' := Inv_run h3 (Inv_step h2 (Inv_reach h1))
  have hcount := hInv'.countEq
  rw [hdel] at hcount
  simp only [List.length_nil] at hcount
  refine ⟨hdel, by omega, ?_, ?_⟩
  · intro ls₂ s₃ hr
    have := run_length_le_of_cancelled hcs hr
    omega
  · intro ls₂ s₃ hr hmax
    exact noStep_closedState (Or.inl (run_cancelled_mono hr hcs)) hmax

/-- Witness for C8 at the concrete scenario: the length bound holds
(with equality) on the five-step continuation `c8Post`, and its final
state is genuinely stuck — every event disabled, not vacuously — and
is the Closed state. -/

theorem claim8_witness :
    (Cancel cancelMid).delivered = [] ∧
      (Cancel cancelMid).drained.length ≤ 10 ∧
      c8Post.length ≤ cancelMeasure cancelCfg (Cancel cancelMid) ∧
      ClosedState c8Final := by
  have hT := claim8_cancel_before_dequeue
    (rfl : runLabels cancelCfg cancelPre (initState cancelCfg) =
      some cancelMid)
    rfl rfl
    (rfl : applyLabel cancelCfg Label.cancel cancelMid =
      some (Cancel cancelMid))
    (rfl : runLabels cancelCfg [] (Cancel cancelMid) =
      some (Cancel cancelMid))
  refine ⟨hT.1, hT.2.1, ?_, ?_⟩
  · exact hT.2.2.1 c8Post c8Final
      (rfl : runLabels cancelCfg c8Post (Cancel cancelMid) =
        some c8Final)
  · exact hT.2.2.2 c8Post c8Final
      (rfl : runLabels cancelCfg c8Post (Cancel cancelMid) =
        some c8Final)
      (applyLabel_none_of_closed_exited rfl rfl rfl rfl (by decide))

/-! ## Inversion lemmas for the ring-buffer system -/

theorem recvInput_inv {cap : Nat} {s s' : RingState}
    (h : applyRing cap RingLabel.recvInput s = some s') :
    ∃ v rest, s.fwd = FwdState.loopHead ∧ s.pending = v :: rest ∧
      s' = { s with
        pending := rest
        fwd := FwdState.select v } := by
  simp only [applyRing] at h
  rcases hf : s.fwd with _ | v | v | v | _ <;> rw [hf] at h <;>
    rcases hp : s.pending with _ | ⟨w, rest⟩ <;> rw [hp] at h <;>
      try cases h
  exact ⟨w, rest, rfl, rfl, rfl⟩

theorem closeInput_inv {cap : Nat} {s s' : RingState}
    (h : applyRing cap RingLabel.closeInput s = some s') :
    s.fwd = FwdState.loopHead ∧ s.pending = [] ∧
      s' = { s with
        fwd := FwdState.done
        outClosed := true } := by
  simp only [applyRing] at h
  rcases hf : s.fwd with _ | v | v | v | _ <;> rw [hf] at h <;>
    rcases hp : s.pending with _ | ⟨w, rest⟩ <;> rw [hp] at h <;>
      try cases h
  exact ⟨rfl, rfl, rfl⟩

theorem sendOk_inv {cap : Nat} {s s' : RingState}
    (h : applyRing cap RingLabel.sendOk s = some s') :
    ∃ v, s.fwd = FwdState.select v ∧ s.buffer.length < cap ∧
      s' = { s with
        fwd := FwdState.loopHead
        buffer := s.buffer ++ [v] } := by
  obtain ⟨p, f, b, oc, cs, cd⟩ := s
  cases f <;> simp only [applyRing] at h <;> try cases h
  rename_i v
  by_cases hlt : b.length < cap
  · rw [if_pos hlt] at h
    exact ⟨v, rfl, hlt, (Option.some.inj h).symm⟩
  · rw [if_neg hlt] at h
    cases h

theorem takeDefault_inv {cap : Nat} {s s' : RingState}
    (h : applyRing cap RingLabel.takeDefault s = some s') :
    ∃ v, s.fwd = FwdState.select v ∧ cap ≤ s.buffer.length ∧
      s' = { s with fwd := FwdState.removing v } := by
  obtain ⟨p, f, b, oc, cs, cd⟩ := s
  cases f <;> simp only [applyRing] at h <;> try cases h
  rename_i v
  by_cases hlt : b.length < cap
  · rw [if_pos hlt] at h
    cases h
  · rw [if_neg hlt] at h
    exact ⟨v, rfl, (by omega : cap ≤ b.length), (Option.some.inj h).symm⟩

theorem removeOldest_inv {cap : Nat} {s s' : RingState}
    (h : applyRing cap RingLabel.removeOldest s = some s') :
    ∃ v r rest, s.fwd = FwdState.removing v ∧ s.buffer = r :: rest ∧
      s' = { s with
        fwd := FwdState.resending v
        buffer := rest } := by
  simp only [applyRing] at h
  rcases hf : s.fwd with _ | v | v | v | _ <;> rw [hf] at h <;>
    rcases hb : s.buffer with _ | ⟨r, rest⟩ <;> rw [hb] at h <;>
      try cases h
  exact ⟨v, r, rest, rfl, rfl, rfl⟩

theorem resend_inv {cap : Nat} {s s' : RingState}
    (h : applyRing cap RingLabel.resend s = some s') :
    ∃ v, s.fwd = FwdState.resending v ∧ s.buffer.length < cap ∧
      s' = { s with
        fwd := FwdState.loopHead
        buffer := s.buffer ++ [v] } := by
  obtain ⟨p, f, b, oc, cs, cd⟩ := s
  cases f <;> simp only [applyRing] at h <;> try cases h
  rename_i v
  by_cases hlt : b.length < cap
  · rw [if_pos hlt] at h
    exact ⟨v, rfl, hlt, (Option.some.inj h).symm⟩
  · rw [if_neg hlt] at h
    cases h

theorem consume_inv {cap : Nat} {s s' : RingState}
    (h : applyRing cap RingLabel.consume s = some s') :
    ∃ r rest, s.buffer = r :: rest ∧ s.consumerDone = false ∧
      s' = { s with
        buffer := rest
        consumed := s.consumed ++ [r] } := by
  obtain ⟨p, f, b, oc, cs, cd⟩ := s
  rcases b with _ | ⟨r, rest⟩ <;> simp only [applyRing] at h <;>
    try cases h
  by_cases hcd : cd = true
  · rw [if_pos hcd] at h
    cases h
  · rw [if_neg hcd] at h
    exact ⟨r, rest, rfl, by simpa using hcd, (Option.some.inj h).symm⟩

theorem consumerEnd_inv {cap : Nat} {s s' : RingState}
    (h : applyRing cap RingLabel.consumerEnd s = some s') :
    s.consumerDone = false ∧ s.outClosed = true ∧ s.buffer = [] ∧
      s' = { s with consumerDone := true } := by
  obtain ⟨p, f, b, oc, cs, cd⟩ := s
  simp only [applyRing] at h
  by_cases hcd : cd = true
  · rw [if_pos hcd] at h
    cases h
  · rw [if_neg hcd] at h
    by_cases hco : (oc && b.isEmpty) = true
    · rw [if_pos hco] at h
      rw [Bool.and_eq_true] at hco
      obtain ⟨h1, h2⟩ := hco
      refine ⟨by simpa using hcd, h1, ?_, (Option.some.inj h).symm⟩
      cases b with
      | nil => rfl
      | cons r rest => simp at h2
    · rw [if_neg hco] at h
      cases h

/-! ## The ring-buffer invariant is inductive -/

theorem RingInv_init (cap : Nat) (input : List Nat) :
    RingInv cap (ringInit input) := by
  refine ⟨by simp [ringInit], ?_, ?_⟩ <;> simp [ringInit]

theorem RingInv_step {cap : Nat} {l : RingLabel} {s s' : RingState}
    (h : applyRing cap l s = some s') (hInv : RingInv cap s) :
    RingInv cap s' := by
  cases l with
  | recvInput =>
    obtain ⟨v, rest, hf, hp, rfl⟩ := recvInput_inv h
    refine ⟨hInv.bufLe, by simp, ?_⟩
    intro hoc
    have := (hInv.closedDone hoc).2
    rw [hf] at this
    cases this
  | closeInput =>
    obtain ⟨hf, hp, rfl⟩ := closeInput_inv h
    exact ⟨hInv.bufLe, by simp, fun _ => ⟨hp, rfl⟩⟩
  | sendOk =>
    obtain ⟨v, hf, hlen, rfl⟩ := sendOk_inv h
    refine ⟨?_, by simp, ?_⟩
    · simp only [List.length_append, List.length_cons, List.length_nil]
      omega
    · intro hoc
      have := (hInv.closedDone hoc).2
      rw [hf] at this
      cases this
  | takeDefault =>
    obtain ⟨v, hf, hlen, rfl⟩ := takeDefault_inv h
    refine ⟨hInv.bufLe, by simp, ?_⟩
    intro hoc
    have := (hInv.closedDone hoc).2
    rw [hf] at this
    cases this
  | removeOldest =>
    obtain ⟨v, r, rest, hf, hb, rfl⟩ := removeOldest_inv h
    have hbl := hInv.bufLe
    rw [hb] at hbl
    simp only [List.length_cons] at hbl
    refine ⟨by simp; omega, ?_, ?_⟩
    · intro v2 _
      simp only [List.length_cons] at hbl ⊢
      omega
    · intro hoc
      have := (hInv.closedDone hoc).2
      rw [hf] at this
      cases this
  | resend =>
    obtain ⟨v, hf, hlen, rfl⟩ := resend_inv h
    refine ⟨?_, by simp, ?_⟩
    · simp only [List.length_append, List.length_cons, List.length_nil]
      omega
    · intro hoc
      have := (hInv.closedDone hoc).2
      rw [hf] at this
      cases this
  | consume =>
    obtain ⟨r, rest, hb, hc, rfl⟩ := consume_inv h
    have hbl := hInv.bufLe
    rw [hb] at hbl
    simp only [List.length_cons] at hbl
    refine ⟨by simp; omega, ?_, ?_⟩
    · intro v hv
      have := hInv.resendLt v hv
      rw [hb] at this
      simp only [List.length_cons] at this ⊢
      omega
    · intro hoc
      exact hInv.closedDone hoc
  | consumerEnd =>
    obtain ⟨hc, ho, hb, rfl⟩ := consumerEnd_inv h
    exact ⟨hInv.bufLe, hInv.resendLt, hInv.closedDone⟩

theorem RingInv_run {cap : Nat} :
    ∀ {ls : List RingLabel} {s s' : RingState},
      ringRunSys cap ls s = some s' → RingInv cap s → RingInv cap s'
  | [], s, s', h, hInv => by
    simp only [ringRunSys, Option.some.injEq] at h
    exact h ▸ hInv
  | l :: ls, s, s', h, hInv => by
    simp only [ringRunSys] at h
    rcases hstep : applyRing cap l s with _ | s₁ <;> rw [hstep] at h
    · cases h
    · exact RingInv_run h (RingInv_step hstep hInv)

theorem step_ringCloseCount {cap : Nat} {l : RingLabel}
    {s s' : RingState} (hInv : RingInv cap s)
    (h : applyRing cap l s = some s') :
    (if s'.outClosed = true then 1 else 0) =
      (if s.outClosed = true then 1 else 0) +
        (if l = RingLabel.closeInput then 1 else 0) := by
  cases l with
  | recvInput => obtain ⟨v, rest, _, _, rfl⟩ := recvInput_inv h; simp
  | closeInput =>
    obtain ⟨hf, hp, rfl⟩ := closeInput_inv h
    rcases hoc : s.outClosed with _ | _
    · simp
    · have := (hInv.closedDone hoc).2
      rw [hf] at this
      cases this
  | sendOk => obtain ⟨v, _, _, rfl⟩ := sendOk_inv h; simp
  | takeDefault => obtain ⟨v, _, _, rfl⟩ := takeDefault_inv h; simp
  | removeOldest =>
    obtain ⟨v, r, rest, _, _, rfl⟩ := removeOldest_inv h; simp
  | resend => obtain ⟨v, _, _, rfl⟩ := resend_inv h; simp
  | consume => obtain ⟨r, rest, _, _, rfl⟩ := consume_inv h; simp
  | consumerEnd => obtain ⟨_, _, _, rfl⟩ := consumerEnd_inv h; simp

theorem ringRun_closeCount {cap : Nat} :
    ∀ {ls : List RingLabel} {s s' : RingState}, RingInv cap s →
      ringRunSys cap ls s = some s' →
        ls.count RingLabel.closeInput +
            (if s.outClosed = true then 1 else 0) =
          (if s'.outClosed = true then 1 else 0)
  | [], s, s', _, h => by
    simp only [ringRunSys, Option.some.injEq] at h
    subst h
    simp
  | l :: ls, s, s', hInv, h => by
    simp only [ringRunSys] at h
    rcases hstep : applyRing cap l s with _ | s₁ <;> rw [hstep] at h
    · cases h
    · have h1 := ringRun_closeCount (RingInv_step hstep hInv) h
      have h2 := step_ringCloseCount hInv hstep
      simp only [List.count_cons, beq_iff_eq]
      omega

/-- The executable `ringNoStep` check means what it says: no event of
the system is enabled, i.e. every goroutine is blocked. -/

theorem ringNoStep_spec {cap : Nat} {s : RingState}
    (h : ringNoStep cap s = true) : ∀ l, applyRing cap l s = none := by
  have hx := List.all_eq_true.1 h
  intro l
  cases l <;>
    exact Option.isNone_iff_eq_none.1 (hx _ (by decide))

/-- C9, counterexample: the original claim asserts that writes never
block the producer indefinitely.  In the faithful concurrent model of
the test system this is false: along `cexTrace` (capacity 3, the
test's input `0..9`) the buffer fills with `0,1,2`, the forwarder
receives `3` and takes the `default` branch, and the consumer then
drains all three buffered values — after which the forwarder is
blocked forever at the bare `<-outCh` (it is the only sender), the
consumer is blocked on the empty open channel, and the producer is
blocked on the `inCh` rendezvous: no event of the system is enabled,
six input values are never forwarded, and the output channel is never
closed. -/

theorem claim9_counterexample :
    ringRunSys 3 cexTrace (ringInit [0, 1, 2, 3, 4, 5, 6, 7, 8, 9]) =
        some cexStuck ∧
      ringNoStep 3 cexStuck = true ∧
      cexStuck.pending = [4, 5, 6, 7, 8, 9] ∧
      cexStuck.fwd = FwdState.removing 3 ∧
      cexStuck.outClosed = false ∧ cexStuck.consumerDone = false :=
  ⟨rfl, rfl, rfl, rfl, rfl, rfl⟩

/-- C9, amended: the ring-buffer forwarder maintains a bounded buffer
invariant — for every input stream and every interleaving with the
concurrent consumer, (1) the output buffer never holds more than its
fixed capacity `cap ≥ 1`; (2) a removal always takes the oldest
buffered element, and (3) when the buffer is at capacity the select's
send is disabled and its `default` branch — remove the oldest, then
insert the new value — is taken instead; (4) the `select` statement
itself never blocks (one of its two branches is always immediately
enabled); and (5) the output channel is closed exactly once, only
after the input stream is exhausted and the forwarder has finished.
The original claim's further guarantee that writes never block the
producer indefinitely is dropped: the bare `<-outCh` in the `default`
branch can block forever when the consumer drains the buffer first
(see the deadlock exhibited above). -/

theorem claim9_ring_buffer_amended {cap : Nat} (hcap : 1 ≤ cap)
    {input : List Nat} {ls : List RingLabel} {s' : RingState}
    (hrun : ringRunSys cap ls (ringInit input) = some s') :
    s'.buffer.length ≤ cap ∧
      (∀ t t' : RingState,
        applyRing cap RingLabel.removeOldest t = some t' →
          ∃ v r, t.fwd = FwdState.removing v ∧
            t.buffer = r :: t'.buffer ∧
            t'.fwd = FwdState.resending v) ∧
      (∀ t : RingState, ∀ v, t.fwd = FwdState.select v →
        cap ≤ t.buffer.length →
          applyRing cap RingLabel.sendOk t = none ∧
            applyRing cap RingLabel.takeDefault t =
              some { t with fwd := FwdState.removing v }) ∧
      (∀ t : RingState, ∀ v, t.fwd = FwdState.select v →
        (applyRing cap RingLabel.sendOk t).isSome = true ∨
          (applyRing cap RingLabel.takeDefault t).isSome = true) ∧
      (s'.outClosed = true → s'.pending = [] ∧ s'.fwd = FwdState.done) ∧
      ls.count RingLabel.closeInput =
        (if s'.outClosed = true then 1 else 0) := by
  have hInv : RingInv cap s' := RingInv_run hrun (RingInv_init cap input)
  refine ⟨hInv.bufLe, ?_, ?_, ?_, hInv.closedDone, ?_⟩
  · intro t t' ht
    obtain ⟨v, r, rest, hf, hb, rfl⟩ := removeOldest_inv ht
    exact ⟨v, r, hf, by rw [hb], rfl⟩
  · intro t v hf hfull
    constructor
    · simp only [applyRing, hf]
      rw [if_neg (by omega)]
    · simp only [applyRing, hf]
      rw [if_neg (by omega)]
  · intro t v hf
    by_cases hlt : t.buffer.length < cap
    · refine Or.inl ?_
      simp [applyRing, hf, hlt]
    · refine Or.inr ?_
      simp [applyRing, hf, hlt]
  · have hcnt := ringRun_closeCount (RingInv_init cap input) hrun
    simpa [ringInit] using hcnt

/-- Witness for the amended C9 at a complete concrete interleaving of
the test system (capacity 3, input `0..9`): the consumer receives
exactly the last three inputs, and the close protocol holds. -/

theorem claim9_witness :
    (1 : Nat) ≤ 3 ∧ ringDemoFinal.buffer.length ≤ 3 ∧
      (ringDemoFinal.outClosed = true → ringDemoFinal.pending = [] ∧
        ringDemoFinal.fwd = FwdState.done) ∧
      ringDemoTrace.count RingLabel.closeInput = 1 ∧
      ringDemoFinal.consumed = [7, 8, 9] := by
  have hT := claim9_ring_buffer_amended (by decide)
    (rfl : ringRunSys 3 ringDemoTrace
        (ringInit [0, 1, 2, 3, 4, 5, 6, 7, 8, 9]) =
      some ringDemoFinal)
  exact ⟨by decide, hT.1, hT.2.2.2.2.1, hT.2.2.2.2.2, rfl⟩

/-- C10: `sleepAndTalk` returns through exactly one of its two
branches: for every duration `d`, message and context, it logs exactly
one line; if the context is cancelled before `d` elapses it logs the
context error and never the message; otherwise it logs the message
exactly once.  In the default main program, where cancel fires after 1
second and the sleep is 5 seconds, the cancellation branch is taken. -/

theorem claim10_sleepAndTalk_branches (c : Option Nat) (d : Nat)
    (m : String) :
    (sleepAndTalk c d m).length = 1 ∧
      (∀ t, c = some t → t < d →
        sleepAndTalk c d m = [LogLine.ctxError] ∧
          LogLine.said m ∉ sleepAndTalk c d m) ∧
      ((∀ t, c = some t → d ≤ t) →
        sleepAndTalk c d m = [LogLine.said m]) ∧
      mainDefaultLog = [LogLine.ctxError] := by
  refine ⟨?_, ?_, ?_, rfl⟩
  · cases c with
    | none => rfl
    | some t =>
      rw [sleepAndTalk]
      split <;> rfl
  · rintro t rfl hlt
    rw [sleepAndTalk, if_pos hlt]
    simp
  · intro hge
    cases c with
    | none => rfl
    | some t =>
      rw [sleepAndTalk, if_neg (by have := hge t rfl; omega)]

/-- Witness for C10 at the default program's instants. -/

theorem claim10_witness :
    sleepAndTalk (some 1000) 5000 "hello" = [LogLine.ctxError] ∧
      LogLine.said "hello" ∉ sleepAndTalk (some 1000) 5000 "hello" ∧
      sleepAndTalk (some 7) 5 "hello" = [LogLine.said "hello"] :=
  ⟨((claim10_sleepAndTalk_branches (some 1000) 5000 "hello").2.1 1000
      rfl (by decide)).1,
   ((claim10_sleepAndTalk_branches (some 1000) 5000 "hello").2.1 1000
      rfl (by decide)).2,
   (claim10_sleepAndTalk_branches (some 7) 5 "hello").2.2.1
     (fun t ht => by cases ht; decide)⟩

end GoConc
